import Mathlib

/-!
Verification of the oozextract decompressor against its specification.

The Rust sources are embedded shallowly: buffers become `List Nat` (byte
values), the tagged buffer pointers become a structure over a space tag and
an index, and every fallible operation (bounds-checked reads and writes,
checked pointer arithmetic, `assert!`s and Rust panics alike) returns
`Except Err`.  A Rust panic and a returned `Err` are both modelled as
`Except.error`, which is faithful for the properties considered here: no
caller in the decoder catches a panic, so both simply mean "this decode
does not succeed".
-/

set_option maxRecDepth 10000

namespace Ooz

/-- Error kinds of the model.  The Rust code distinguishes rich error values;
for the claims only success vs failure matters, so a small enum suffices. -/
inductive Err where
  | oob
  | panicked
  | assertFail
  | fuel
  deriving DecidableEq, Repr

abbrev Res (α : Type) := Except Err α

instance {α : Type} [DecidableEq α] : DecidableEq (Res α) := fun a b =>
  match a, b with
  | .ok x, .ok y => if h : x = y then .isTrue (by rw [h]) else .isFalse (by simp [h])
  | .error x, .error y => if h : x = y then .isTrue (by rw [h]) else .isFalse (by simp [h])
  | .ok _, .error _ => .isFalse (by simp)
  | .error _, .ok _ => .isFalse (by simp)

/-- `PointerDest` from `src/pointer.rs` / `src/core/pointer.rs`. -/
inductive PointerDest where
  | Null
  | Input
  | Output
  | Scratch
  | Temp
  deriving DecidableEq, Repr

/-- `Pointer` from `src/pointer.rs`: a space tag plus a byte offset. -/
structure Pointer where
  into : PointerDest
  index : Nat
  deriving DecidableEq, Repr

def Pointer.input (i : Nat) : Pointer := ⟨.Input, i⟩

def Pointer.output (i : Nat) : Pointer := ⟨.Output, i⟩

def Pointer.scratch (i : Nat) : Pointer := ⟨.Scratch, i⟩

def Pointer.tmp (i : Nat) : Pointer := ⟨.Temp, i⟩

/-- Rust `Pointer + usize`. -/
def Pointer.add (p : Pointer) (n : Nat) : Pointer := { p with index := p.index + n }

instance : HAdd Pointer Nat Pointer := ⟨Pointer.add⟩

/-- Rust `Pointer + i32` / `+= i32`: `checked_add_signed(..).unwrap()` panics
when the result would drop below zero. -/
def ptrAddInt (p : Pointer) (o : Int) : Res Pointer :=
  if 0 ≤ (p.index : Int) + o then .ok { p with index := ((p.index : Int) + o).toNat }
  else .error .panicked

/-- Rust `Pointer - Pointer`: only within one space, `checked_sub` on the
offsets; both failure modes produce an error. -/
def ptrSubPtr (p q : Pointer) : Res Nat :=
  if p.into = q.into then
    if q.index ≤ p.index then .ok (p.index - q.index) else .error .oob
  else .error .assertFail

/-- Rust `Pointer - usize` (`checked_sub`). -/
def ptrSubNat (p : Pointer) (n : Nat) : Res Pointer :=
  if n ≤ p.index then .ok { p with index := p.index - n } else .error .oob

/-- The derived Rust `PartialOrd` on `Pointer`: pointers in different spaces
compare as `None`, so `<` is false across spaces. -/
def ptrLt (p q : Pointer) : Bool := p.into == q.into && p.index < q.index

def ptrLe (p q : Pointer) : Bool := p.into == q.into && p.index ≤ q.index

def ptrGe (p q : Pointer) : Bool := p.into == q.into && q.index ≤ p.index

/-- `IntPointer` from `src/pointer.rs`: same representation as `Pointer`
but `+ usize` advances in 4-byte strides. -/
structure IntPointer where
  into : PointerDest
  index : Nat
  deriving DecidableEq, Repr

/-- Rust `IntPointer + usize`: `index + rhs * 4`. -/
def IntPointer.add (p : IntPointer) (n : Nat) : IntPointer :=
  { p with index := p.index + n * 4 }

instance : HAdd IntPointer Nat IntPointer := ⟨IntPointer.add⟩

def Pointer.toIntPointer (p : Pointer) : IntPointer := ⟨p.into, p.index⟩

/-- Rust `IntPointer - IntPointer` (element count). -/
def intPtrSub (p q : IntPointer) : Res Nat :=
  if p.into = q.into then
    if q.index ≤ p.index then .ok ((p.index - q.index) / 4) else .error .oob
  else .error .assertFail

/-- The decoder state `Core` (`src/core.rs`): the four buffer spaces.
The cursor fields of the Rust struct are passed explicitly where needed. -/
structure Core where
  input : List Nat
  output : List Nat
  scratch : List Nat
  tmp : List Nat
  deriving DecidableEq, Repr

def Core.space (c : Core) : PointerDest → List Nat
  | .Null => []
  | .Input => c.input
  | .Output => c.output
  | .Scratch => c.scratch
  | .Temp => c.tmp

def Core.setSpace (c : Core) (d : PointerDest) (l : List Nat) : Core :=
  match d with
  | .Null => c
  | .Input => { c with input := l }
  | .Output => { c with output := l }
  | .Scratch => { c with scratch := l }
  | .Temp => { c with tmp := l }

/-- `Vec::resize(size, 0)` in the growing direction (the source only calls
it when `len < size`). -/
def grow (l : List Nat) (size : Nat) : List Nat :=
  if l.length < size then l ++ List.replicate (size - l.length) 0 else l

/-- `ensure_scratch` (`src/pointer.rs`). -/
def Core.ensure_scratch (c : Core) (size : Nat) : Core :=
  { c with scratch := grow c.scratch size }

/-- `ensure_tmp` (`src/pointer.rs`). -/
def Core.ensure_tmp (c : Core) (size : Nat) : Core :=
  { c with tmp := grow c.tmp size }

/-- `slice.get(i)` as a fallible byte read. -/
def listGetRes (l : List Nat) (i : Nat) : Res Nat :=
  match l.get? i with
  | some v => .ok v
  | none => .error .oob

/-- `slice.get(i..i+n)`. -/
def sliceRes (l : List Nat) (i n : Nat) : Res (List Nat) :=
  if i + n ≤ l.length then .ok ((l.drop i).take n) else .error .oob

/-- `get_byte` (`src/pointer.rs`): a bounds-checked single-byte read; the
`Null` arm is a Rust `panic!()`, modelled as an error. -/
def Core.get_byte (c : Core) (p : Pointer) : Res Nat :=
  match p.into with
  | .Null => .error .panicked
  | .Input => listGetRes c.input p.index
  | .Output => listGetRes c.output p.index
  | .Scratch => listGetRes c.scratch p.index
  | .Temp => listGetRes c.tmp p.index

/-- `get_slice` (`src/pointer.rs` lines 286-301): input and output are read
with a plain bounds check, while scratch and tmp are grown to `p.index + n`
first (`ensure_scratch` / `ensure_tmp`), so those reads cannot go out of
bounds.  Returns the slice together with the possibly grown core. -/
def Core.get_slice (c : Core) (p : Pointer) (n : Nat) : Res (List Nat × Core) :=
  match p.into with
  | .Null => .error .panicked
  | .Input => (sliceRes c.input p.index n).map (fun s => (s, c))
  | .Output => (sliceRes c.output p.index n).map (fun s => (s, c))
  | .Scratch =>
    (sliceRes (grow c.scratch (p.index + n)) p.index n).map
      (fun s => (s, c.ensure_scratch (p.index + n)))
  | .Temp =>
    (sliceRes (grow c.tmp (p.index + n)) p.index n).map
      (fun s => (s, c.ensure_tmp (p.index + n)))

/-- Little-endian value of a byte list (each entry read as a `u8`). -/
def leVal : List Nat → Nat
  | [] => 0
  | b :: bs => b % 256 + 256 * leVal bs

/-- Big-endian value of a byte list (each entry read as a `u8`). -/
def beVal (l : List Nat) : Nat := l.foldl (fun acc b => acc * 256 + b % 256) 0

/-- `get_le_bytes` (`src/pointer.rs`): assembles up to 8 bytes into a
little-endian `usize`; `bytes[..n].copy_from_slice` panics for `n > 8`. -/
def Core.get_le_bytes (c : Core) (p : Pointer) (n : Nat) : Res (Nat × Core) :=
  if n ≤ 8 then (c.get_slice p n).map (fun x => (leVal x.1, x.2))
  else .error .panicked

/-- `get_be_bytes` (`src/pointer.rs`). -/
def Core.get_be_bytes (c : Core) (p : Pointer) (n : Nat) : Res (Nat × Core) :=
  if n ≤ 8 then (c.get_slice p n).map (fun x => (beVal x.1, x.2))
  else .error .panicked

/-- Write a byte list `v` into `l` at position `i` (Rust
`buf[i..i+v.len()].copy_from_slice(v)`; callers establish
`i + v.length ≤ l.length`). -/
def writeBytes (l : List Nat) (i : Nat) (v : List Nat) : List Nat :=
  l.take i ++ v ++ l.drop (i + v.length)

/-- `set` (`src/pointer.rs`): single byte write; `Null`/`Input` panic,
output writes are bounds-checked, scratch and tmp grow. -/
def Core.set (c : Core) (p : Pointer) (v : Nat) : Res Core :=
  match p.into with
  | .Null => .error .panicked
  | .Input => .error .panicked
  | .Output =>
    if p.index < c.output.length then
      .ok { c with output := c.output.set p.index (v % 256) }
    else .error .oob
  | .Scratch =>
    .ok (let c2 := c.ensure_scratch (p.index + 1);
         { c2 with scratch := c2.scratch.set p.index (v % 256) })
  | .Temp =>
    .ok (let c2 := c.ensure_tmp (p.index + 1);
         { c2 with tmp := c2.tmp.set p.index (v % 256) })

/-- `set_bytes` (`src/pointer.rs`). -/
def Core.set_bytes (c : Core) (p : Pointer) (v : List Nat) : Res Core :=
  match p.into with
  | .Null => .error .panicked
  | .Input => .error .panicked
  | .Output =>
    if p.index + v.length ≤ c.output.length then
      .ok { c with output := writeBytes c.output p.index (v.map (· % 256)) }
    else .error .oob
  | .Scratch =>
    .ok (let c2 := c.ensure_scratch (p.index + v.length);
         { c2 with scratch := writeBytes c2.scratch p.index (v.map (· % 256)) })
  | .Temp =>
    .ok (let c2 := c.ensure_tmp (p.index + v.length);
         { c2 with tmp := writeBytes c2.tmp p.index (v.map (· % 256)) })

/-- Two's-complement reinterpretation of a `u32` bit pattern as `i32`. -/
def toInt32 (u : Nat) : Int :=
  if u % 4294967296 < 2147483648 then ((u % 4294967296 : Nat) : Int)
  else ((u % 4294967296 : Nat) : Int) - 4294967296

/-- `copy_bytes` (`src/core/pointer.rs` lines 317-388): same-space copies are
`copy_within` (memmove) after a bounds check (scratch/tmp grow to the
required length instead), cross-space copies check both ranges and forbid
`Input`/`Null` destinations.  `memmove` of `src/pointer.rs` panics in
exactly the situations where this returns an error and produces the same
buffers on success, so one model serves both. -/
def Core.copy_bytes (c : Core) (dest src : Pointer) (n : Nat) : Res Core :=
  if dest.into = src.into then
    if dest.index = src.index then .ok c
    else
      match dest.into with
      | .Null => .error .panicked
      | .Input => .error .panicked
      | .Output =>
        if max src.index dest.index + n ≤ c.output.length then
          .ok { c with output := writeBytes c.output dest.index ((c.output.drop src.index).take n) }
        else .error .assertFail
      | .Scratch =>
        .ok (let c2 := c.ensure_scratch (max src.index dest.index + n);
             { c2 with scratch := writeBytes c2.scratch dest.index ((c2.scratch.drop src.index).take n) })
      | .Temp =>
        .ok (let c2 := c.ensure_tmp (max src.index dest.index + n);
             { c2 with tmp := writeBytes c2.tmp dest.index ((c2.tmp.drop src.index).take n) })
  else
    match dest.into with
    | .Null => .error .panicked
    | .Input => .error .panicked
    | .Output => do
      if dest.index + n ≤ c.output.length then
        let s ← match src.into with
          | .Null => (.error .oob : Res (List Nat))
          | .Input => sliceRes c.input src.index n
          | .Output => .error .oob
          | .Scratch => sliceRes c.scratch src.index n
          | .Temp => sliceRes c.tmp src.index n
        .ok { c with output := writeBytes c.output dest.index s }
      else .error .oob
    | .Scratch => do
      let c2 := c.ensure_scratch (dest.index + n)
      let s ← match src.into with
        | .Null => (.error .oob : Res (List Nat))
        | .Input => sliceRes c2.input src.index n
        | .Output => sliceRes c2.output src.index n
        | .Scratch => .error .oob
        | .Temp => sliceRes c2.tmp src.index n
      .ok { c2 with scratch := writeBytes c2.scratch dest.index s }
    | .Temp => do
      let c2 := c.ensure_tmp (dest.index + n)
      let s ← match src.into with
        | .Null => (.error .oob : Res (List Nat))
        | .Input => sliceRes c2.input src.index n
        | .Output => sliceRes c2.output src.index n
        | .Scratch => sliceRes c2.scratch src.index n
        | .Temp => .error .oob
      .ok { c2 with tmp := writeBytes c2.tmp dest.index s }

/-- `memmove`/`memcpy` (`src/pointer.rs`): same success states and failure
conditions as `copy_bytes` (panics instead of `Err` values). -/
def Core.memmove (c : Core) (dest src : Pointer) (n : Nat) : Res Core :=
  c.copy_bytes dest src n

/-- `copy_64_add` (`src/pointer.rs`): `dest[i] = lhs[i] + rhs[i] (mod 256)`. -/
def Core.copy_64_add (c : Core) (dest lhs rhs : Pointer) (n : Nat) : Res Core :=
  (List.range n).foldlM
    (fun c i => do
      let a ← c.get_byte (lhs + i)
      let b ← c.get_byte (rhs + i)
      c.set (dest + i) ((a + b) % 256))
    c

/-- `memset` (`src/pointer.rs`). -/
def Core.memset (c : Core) (p : Pointer) (v : Nat) (n : Nat) : Res Core :=
  match p.into with
  | .Null => .error .panicked
  | .Input => .error .panicked
  | .Output =>
    if p.index + n ≤ c.output.length then
      .ok { c with output := writeBytes c.output p.index (List.replicate n (v % 256)) }
    else .error .oob
  | .Scratch =>
    .ok (let c2 := c.ensure_scratch (p.index + n);
         { c2 with scratch := writeBytes c2.scratch p.index (List.replicate n (v % 256)) })
  | .Temp =>
    .ok (let c2 := c.ensure_tmp (p.index + n);
         { c2 with tmp := writeBytes c2.tmp p.index (List.replicate n (v % 256)) })

/-- The 8-byte-stride loop of `repeat_copy_64` with an explicit iteration
bound (the loop advances `n` by 8 each round, so it runs at most `bytes`
iterations; the structural fuel makes the function computable by
reduction).  `repeatChunks` below fixes the fuel and
`repeatChunks_eq` recovers the loop equation. -/
def repeatChunksF : Nat → List Nat → Nat → Nat → Nat → Nat → List Nat
  | 0, buf, _, _, _, _ => buf
  | fuel + 1, buf, src, dst, bytes, n =>
    if n < bytes then
      repeatChunksF fuel
        (writeBytes buf (dst + n) ((buf.drop (src + n)).take (min bytes (n + 8) - n)))
        src dst bytes (n + 8)
    else buf

/-- The 8-byte-stride loop of `repeat_copy_64`
(`src/pointer.rs` lines 408-412 and `src/kraken.rs` lines 2183-2187):
`while n < bytes { buf.copy_within(src+n .. src+min(bytes,n+8), dest+n); n += 8 }`. -/
def repeatChunks (buf : List Nat) (src dst bytes n : Nat) : List Nat :=
  repeatChunksF bytes buf src dst bytes n

/-- One stride of the repeat-copy loop as a step function on the buffer:
chunk `k` copies the bytes at `src + 8k ..` up to `min (bytes, 8k+8)`. -/
def chunkStep (src dst bytes : Nat) (buf : List Nat) (k : Nat) : List Nat :=
  writeBytes buf (dst + 8 * k) ((buf.drop (src + 8 * k)).take (min bytes (8 * k + 8) - 8 * k))

/-- Same-space body of `repeat_copy_64` for one buffer space. -/
def repeatInBuf (c : Core) (d : PointerDest) (di si bytes : Nat) : Res Core :=
  let buf := c.space d
  if bytes < Nat.dist si di then
    if si + bytes ≤ buf.length ∧ di + bytes ≤ buf.length then
      .ok (c.setSpace d (writeBytes buf di ((buf.drop si).take bytes)))
    else .error .oob
  else
    if si + bytes ≤ buf.length ∧ di + bytes ≤ buf.length then
      .ok (c.setSpace d (repeatChunks buf si di bytes 0))
    else .error .oob

/-- `repeat_copy_64` (`src/pointer.rs` lines 385-414): cross-space falls back
to `memmove`; same-space first grows scratch/tmp to `dest + bytes`, then
either takes the plain `copy_within` fast path (`bytes < |src - dest|`) or
runs the 8-byte-stride loop.  A chunk `copy_within` that would run out of
bounds panics; since a panic discards the decode, checking the full range up
front is observationally the same. -/
def Core.repeat_copy_64 (c : Core) (dest src : Pointer) (bytes : Nat) : Res Core :=
  if dest.into ≠ src.into then c.memmove dest src bytes
  else
    match dest.into with
    | .Null => .error .panicked
    | .Input => .error .panicked
    | .Output => repeatInBuf c .Output dest.index src.index bytes
    | .Scratch => repeatInBuf (c.ensure_scratch (dest.index + bytes)) .Scratch dest.index src.index bytes
    | .Temp => repeatInBuf (c.ensure_tmp (dest.index + bytes)) .Temp dest.index src.index bytes

/-- `assert_le` of the error plumbing: an `Err` result when the check
fails. -/
def assert_le (a b : Nat) : Res Unit :=
  if a ≤ b then .ok () else .error .assertFail

/-- Cursor state of the RLE command loop in `decode_rle`
(`src/core.rs` lines 1206-1252). -/
structure RleState where
  cmd_ptr : Pointer
  cmd_ptr_end : Pointer
  dst : Pointer
  dst_end : Pointer
  rle_byte : Nat
  deriving DecidableEq, Repr

/-- `decode_rle` shape `cmd == 0 || cmd > 0x2f` (`src/core.rs` 1210-1220):
copy `!cmd & 0xF` literal bytes, then memset `cmd >> 4` RLE bytes. -/
def rleShapeNibble (c : Core) (s : RleState) (pe : Pointer) (cmd : Nat) :
    Res (Core × RleState) := do
  let bytes_to_copy := 15 - cmd % 16
  let bytes_to_rle := cmd / 16
  let avail ← ptrSubPtr s.dst_end s.dst
  let _ ← assert_le (bytes_to_copy + bytes_to_rle) avail
  let cavail ← ptrSubPtr pe s.cmd_ptr
  let _ ← assert_le bytes_to_copy cavail
  let c ← c.copy_bytes s.dst s.cmd_ptr bytes_to_copy
  let dst := s.dst + bytes_to_copy
  let c ← c.memset dst s.rle_byte bytes_to_rle
  .ok (c, { s with cmd_ptr := s.cmd_ptr + bytes_to_copy,
                   cmd_ptr_end := pe, dst := dst + bytes_to_rle })

/-- `decode_rle` shape `0x10 <= cmd <= 0x2f` (`src/core.rs` 1221-1232):
16-bit little-endian command minus 4096; low 6 bits copy, high bits RLE. -/
def rleShapeData16 (c : Core) (s : RleState) : Res (Core × RleState) := do
  let pe2 ← ptrSubNat s.cmd_ptr_end 2
  let vc ← c.get_le_bytes pe2 2
  if vc.1 < 4096 then .error .panicked else
  let data := vc.1 - 4096
  let bytes_to_copy := data % 64
  let bytes_to_rle := data / 64
  let avail ← ptrSubPtr s.dst_end s.dst
  let _ ← assert_le (bytes_to_copy + bytes_to_rle) avail
  let cavail ← ptrSubPtr pe2 s.cmd_ptr
  let _ ← assert_le bytes_to_copy cavail
  let c ← vc.2.copy_bytes s.dst s.cmd_ptr bytes_to_copy
  let dst := s.dst + bytes_to_copy
  let c ← c.memset dst s.rle_byte bytes_to_rle
  .ok (c, { s with cmd_ptr := s.cmd_ptr + bytes_to_copy,
                   cmd_ptr_end := pe2, dst := dst + bytes_to_rle })

/-- `decode_rle` shape `cmd == 1` (`src/core.rs` 1233-1236): cache the next
RLE byte. -/
def rleShapeByte (c : Core) (s : RleState) (pe : Pointer) : Res (Core × RleState) := do
  let b ← c.get_byte s.cmd_ptr
  .ok (c, { s with rle_byte := b, cmd_ptr := s.cmd_ptr + 1, cmd_ptr_end := pe })

/-- `decode_rle` shape `9 <= cmd < 0x10` (`src/core.rs` 1237-1242):
two-byte value minus `0x8ff`, × 128 RLE bytes. -/
def rleShapeRle128 (c : Core) (s : RleState) : Res (Core × RleState) := do
  let pe2 ← ptrSubNat s.cmd_ptr_end 2
  let vc ← c.get_le_bytes pe2 2
  if vc.1 < 0x8ff then .error .panicked else
  let bytes_to_rle := (vc.1 - 0x8ff) * 128
  let avail ← ptrSubPtr s.dst_end s.dst
  let _ ← assert_le bytes_to_rle avail
  let c ← vc.2.memset s.dst s.rle_byte bytes_to_rle
  .ok (c, { s with cmd_ptr_end := pe2, dst := s.dst + bytes_to_rle })

/-- `decode_rle` final shape (`src/core.rs` 1243-1251): two-byte value
minus 511, × 64 copied bytes. -/
def rleShapeCopy64 (c : Core) (s : RleState) : Res (Core × RleState) := do
  let pe2 ← ptrSubNat s.cmd_ptr_end 2
  let vc ← c.get_le_bytes pe2 2
  if vc.1 < 511 then .error .panicked else
  let bytes_to_copy := (vc.1 - 511) * 64
  let cavail ← ptrSubPtr pe2 s.cmd_ptr
  let _ ← assert_le bytes_to_copy cavail
  let avail ← ptrSubPtr s.dst_end s.dst
  let _ ← assert_le bytes_to_copy avail
  let c ← vc.2.copy_bytes s.dst s.cmd_ptr bytes_to_copy
  .ok (c, { s with cmd_ptr_end := pe2, dst := s.dst + bytes_to_copy,
                   cmd_ptr := s.cmd_ptr + bytes_to_copy })

/-- One iteration of the `decode_rle` command loop (`src/core.rs` lines
1208-1251): the command byte is read from `cmd_ptr_end - 1` and dispatched
over the five shapes, in the source's order:
`cmd == 0 || cmd > 0x2f`, `cmd >= 0x10`, `cmd == 1`, `cmd >= 9`, else. -/
def rle_step (c : Core) (s : RleState) : Res (Core × RleState) := do
  let pe ← ptrSubNat s.cmd_ptr_end 1
  let b ← c.get_byte pe
  let cmd := b % 256
  if cmd = 0 ∨ 0x2f < cmd then rleShapeNibble c s pe cmd
  else if 0x10 ≤ cmd then rleShapeData16 c s
  else if cmd = 1 then rleShapeByte c s pe
  else if 9 ≤ cmd then rleShapeRle128 c s
  else rleShapeCopy64 c s

/-- The `decode_rle` command loop `while cmd_ptr < cmd_ptr_end`.  Every
iteration lowers `cmd_ptr_end` by at least one, so the initial end offset
bounds the iteration count. -/
def rleLoopF : Nat → Core → RleState → Res (Core × RleState)
  | 0, c, s => if ptrLt s.cmd_ptr s.cmd_ptr_end then .error .fuel else .ok (c, s)
  | f + 1, c, s =>
    if ptrLt s.cmd_ptr s.cmd_ptr_end then do
      let cs ← rle_step c s
      rleLoopF f cs.1 cs.2
    else .ok (c, s)

def rle_loop (c : Core) (s : RleState) : Res (Core × RleState) :=
  rleLoopF s.cmd_ptr_end.index c s

/-- The optional 8-byte prefix copy at the start of `read_lz_table`
(`src/algorithm/kraken.rs` lines 76-80): executed when `offset == 0`. -/
def lz_prefix_copy (c : Core) (src dst : Pointer) (offset : Nat) :
    Res (Core × Pointer × Pointer) :=
  if offset = 0 then do
    let c2 ← c.copy_bytes dst src 8
    pure (c2, src + 8, dst + 8)
  else pure (c, src, dst)

/-- The opening of `read_lz_table` (`src/algorithm/kraken.rs` lines 58-91)
through the packed-stream flag byte, parameterized over the remainder of
the table build (`rest` receives the core and the `src`/`dst` cursors as
the source leaves them).  The flag-set path performs the two
`assert_eq` checks of lines 85-89; the second one,
`assert_eq(flag & 0x80, 0)` ("excess bytes not supported"), can never hold
on this path. -/
def read_lz_table_start {α : Type} (c : Core) (src src_end dst : Pointer)
    (offset : Nat) (rest : Core → Pointer → Pointer → Res α) : Res α := do
  let rem ← ptrSubPtr src_end src
  let _ ← assert_le 13 rem
  let csd ← lz_prefix_copy c src dst offset
  let flag ← csd.1.get_byte csd.2.1
  if flag % 256 &&& 0x80 ≠ 0 then
    let src2 := csd.2.1 + 1
    if flag % 256 &&& 0xC0 = 0x80 then
      if flag % 256 &&& 0x80 = 0 then rest csd.1 src2 csd.2.2
      else .error .assertFail
    else .error .assertFail
  else rest csd.1 csd.2.1 csd.2.2

/-- Bit reader state (`src/bit_reader.rs`): 32-bit accumulator `bits`, the
refill position `bitpos`, and the byte cursor `p` bounded by `p_end`. -/
structure BitReader where
  p : Pointer
  p_end : Pointer
  bits : Nat
  bitpos : Int
  deriving DecidableEq, Repr

/-- The body of `Refill` (`src/bit_reader.rs` lines 25-33):
`while bitpos > 0 { bits |= byte << bitpos; bitpos -= 8; p += 1 }` where
the byte is read from the source when `p < p_end` and is zero otherwise.
`bitpos` drops by 8 per round, so entry values ≤ 24 need at most 3 rounds;
the structural fuel of 3 makes the function computable by reduction. -/
def refillGoF : Nat → Core → BitReader → Res BitReader
  | 0, _, br => if 0 < br.bitpos then .error .fuel else .ok br
  | f + 1, source, br =>
    if 0 < br.bitpos then do
      let byte ← if ptrLt br.p br.p_end then source.get_byte br.p else pure 0
      refillGoF f source
        { br with bits := (br.bits ||| (byte % 256) <<< br.bitpos.toNat) % 4294967296,
                  bitpos := br.bitpos - 8, p := br.p + 1 }
    else .ok br

/-- `Refill` (`src/bit_reader.rs` lines 23-34); the leading
`assert!(bitpos <= 24)` panics on violation. -/
def BitReader.refill (br : BitReader) (source : Core) : Res BitReader :=
  if br.bitpos ≤ 24 then refillGoF 3 source br else .error .panicked

/-- The body of `RefillBackwards` (`src/bit_reader.rs` lines 40-48):
`p` moves downward (`p -= 1` underflows — panics — at offset 0) and bytes
below `p_end` read as zero. -/
def refillBackGoF : Nat → Core → BitReader → Res BitReader
  | 0, _, br => if 0 < br.bitpos then .error .fuel else .ok br
  | f + 1, source, br =>
    if 0 < br.bitpos then do
      let p2 ← ptrSubNat br.p 1
      let byte ← if ptrGe p2 br.p_end then source.get_byte p2 else pure 0
      refillBackGoF f source
        { br with bits := (br.bits ||| (byte % 256) <<< br.bitpos.toNat) % 4294967296,
                  bitpos := br.bitpos - 8, p := p2 }
    else .ok br

/-- `RefillBackwards` (`src/bit_reader.rs` lines 38-49). -/
def BitReader.refill_backwards (br : BitReader) (source : Core) : Res BitReader :=
  if br.bitpos ≤ 24 then refillBackGoF 3 source br else .error .panicked

/-- `u32::rotate_left`. -/
def rotl32 (x : Nat) (n : Nat) : Nat :=
  ((x % 4294967296) <<< (n % 32) ||| (x % 4294967296) >>> (32 - n % 32)) % 4294967296

/-- `ReadDistance` (`src/bit_reader.rs` lines 140-166).  `u32` arithmetic
is modelled with explicit `% 2^32`; the cast of the result to `i32` is
`toInt32`. -/
def BitReader.read_distance (br : BitReader) (source : Core) (v : Nat) :
    Res (BitReader × Int) :=
  if v < 0xF0 then
    let n := (v >>> 4) + 4
    let w := rotl32 (br.bits ||| 1) n
    let m := (2 <<< n) - 1
    let br2 : BitReader :=
      { br with bitpos := br.bitpos + n, bits := w &&& (4294967295 - m) }
    let rv := ((w &&& m) <<< 4 + (v &&& 0xF) + (4294967296 - 248)) % 4294967296
    (br2.refill source).map (fun br3 => (br3, toInt32 rv))
  else
    let n := v - 0xF0 + 4
    let w := rotl32 (br.bits ||| 1) n
    let m := (2 <<< n) - 1
    let br2 : BitReader :=
      { br with bitpos := br.bitpos + n, bits := w &&& (4294967295 - m) }
    let rv := (8322816 + ((w &&& m) <<< 12)) % 4294967296
    do
      let br3 ← br2.refill source
      let rv2 := (rv + br3.bits >>> 20) % 4294967296
      let br4 : BitReader :=
        { br3 with bitpos := br3.bitpos + 12, bits := (br3.bits <<< 12) % 4294967296 }
      (br4.refill source).map (fun br5 => (br5, toInt32 rv2))

/-- `ReadDistanceB` (`src/bit_reader.rs` lines 169-196): identical
arithmetic with backward refills (and `bits >> (32 - 12)` in the long
branch, the same shift as forward). -/
def BitReader.read_distance_b (br : BitReader) (source : Core) (v : Nat) :
    Res (BitReader × Int) :=
  if v < 0xF0 then
    let n := (v >>> 4) + 4
    let w := rotl32 (br.bits ||| 1) n
    let m := (2 <<< n) - 1
    let br2 : BitReader :=
      { br with bitpos := br.bitpos + n, bits := w &&& (4294967295 - m) }
    let rv := ((w &&& m) <<< 4 + (v &&& 0xF) + (4294967296 - 248)) % 4294967296
    (br2.refill_backwards source).map (fun br3 => (br3, toInt32 rv))
  else
    let n := v - 0xF0 + 4
    let w := rotl32 (br.bits ||| 1) n
    let m := (2 <<< n) - 1
    let br2 : BitReader :=
      { br with bitpos := br.bitpos + n, bits := w &&& (4294967295 - m) }
    let rv := (8322816 + ((w &&& m) <<< 12)) % 4294967296
    do
      let br3 ← br2.refill_backwards source
      let rv2 := (rv + br3.bits >>> 20) % 4294967296
      let br4 : BitReader :=
        { br3 with bitpos := br3.bitpos + 12, bits := (br3.bits <<< 12) % 4294967296 }
      (br4.refill_backwards source).map (fun br5 => (br5, toInt32 rv2))

/-- `TansLutEnt` (`src/tans.rs` lines 362-367): `x: u32`, `bits_x: u8`,
`symbol: u8`, `w: u16`. -/
structure TansLutEnt where
  x : Nat
  bits_x : Nat
  symbol : Nat
  w : Nat
  deriving DecidableEq, Repr

/-- `TansDecoder` (`src/tans.rs` lines 7-18); `bits_f`/`bits_b` are `usize`
and `bitpos_f`/`bitpos_b` are `i32`; `state: [usize; 5]` is a 5-entry list. -/
structure TansDecoder where
  lut : List TansLutEnt
  dst : Pointer
  dst_end : Pointer
  ptr_f : Pointer
  ptr_b : Pointer
  bits_f : Nat
  bits_b : Nat
  bitpos_f : Int
  bitpos_b : Int
  state : List Nat
  deriving DecidableEq, Repr

/-- Rust indexing `l[i]` on a slice/Vec: out of bounds panics. -/
def listGetPanic {α : Type} (l : List α) (i : Nat) : Res α :=
  match l[i]? with
  | some v => .ok v
  | none => .error .panicked

/-- Rust `usize << i32` (debug): panics when the shift amount is negative
or at least the bit width, else shifts modulo `2^64`. -/
def shlUsize (x : Nat) (s : Int) : Res Nat :=
  if 0 ≤ s ∧ s < 64 then .ok ((x <<< s.toNat) % 18446744073709551616)
  else .error .panicked

/-- `tans_forward_bits` (`src/tans.rs` lines 60-65):
`bits_f |= get_le_bytes(ptr_f, 4) << bitpos_f; ptr_f += (31 - bitpos_f) >> 3;
bitpos_f |= 24` (the `i32` shift `>> 3` is a floor division by 8). -/
def TansDecoder.tans_forward_bits (t : TansDecoder) (core : Core) :
    Res (TansDecoder × Core) := do
  let vc ← core.get_le_bytes t.ptr_f 4
  let sh ← shlUsize vc.1 t.bitpos_f
  let p2 ← ptrAddInt t.ptr_f (Int.fdiv (31 - t.bitpos_f) 8)
  .ok ({ t with bits_f := (t.bits_f ||| sh) % 18446744073709551616,
                ptr_f := p2,
                bitpos_f := Int.lor t.bitpos_f 24 }, vc.2)

/-- `tans_forward_round` (`src/tans.rs` lines 67-75): emits one symbol from
state `i`; the new state reads the pre-shift `bits_f`. -/
def TansDecoder.tans_forward_round (t : TansDecoder) (core : Core) (i : Nat) :
    Res (TansDecoder × Core) := do
  let s ← listGetPanic t.state i
  let e ← listGetPanic t.lut s
  let core2 ← core.set t.dst e.symbol
  if 64 ≤ e.bits_x then .error .panicked
  else
    .ok ({ t with dst := t.dst + 1,
                  bitpos_f := t.bitpos_f - e.bits_x,
                  state := t.state.set i ((t.bits_f &&& e.x) + e.w),
                  bits_f := t.bits_f >>> e.bits_x }, core2)

/-- `tans_backward_bits` (`src/tans.rs` lines 77-81): big-endian read at
`ptr_b - 4` (a fallible `Pointer - usize`), cursor moves down. -/
def TansDecoder.tans_backward_bits (t : TansDecoder) (core : Core) :
    Res (TansDecoder × Core) := do
  let pm4 ← ptrSubNat t.ptr_b 4
  let vc ← core.get_be_bytes pm4 4
  let sh ← shlUsize vc.1 t.bitpos_b
  let p2 ← ptrAddInt t.ptr_b (-(Int.fdiv (31 - t.bitpos_b) 8))
  .ok ({ t with bits_b := (t.bits_b ||| sh) % 18446744073709551616,
                ptr_b := p2,
                bitpos_b := Int.lor t.bitpos_b 24 }, vc.2)

/-- `tans_backward_round` (`src/tans.rs` lines 83-91). -/
def TansDecoder.tans_backward_round (t : TansDecoder) (core : Core) (i : Nat) :
    Res (TansDecoder × Core) := do
  let s ← listGetPanic t.state i
  let e ← listGetPanic t.lut s
  let core2 ← core.set t.dst e.symbol
  if 64 ≤ e.bits_x then .error .panicked
  else
    .ok ({ t with dst := t.dst + 1,
                  bitpos_b := t.bitpos_b - e.bits_x,
                  state := t.state.set i ((t.bits_b &&& e.x) + e.w),
                  bits_b := t.bits_b >>> e.bits_x }, core2)

/-- One iteration of the `decode` loop body (`src/tans.rs` lines 33-44):
steps 0-4 run forward (bits refilled on even steps), steps 5-9 backward
(bits refilled on odd steps). -/
def tansStep (t : TansDecoder) (core : Core) (step : Nat) :
    Res (TansDecoder × Core) :=
  if step < 5 then do
    let tc ← if step % 2 = 0 then t.tans_forward_bits core else .ok (t, core)
    tc.1.tans_forward_round tc.2 step
  else do
    let tc ← if step % 2 = 1 then t.tans_backward_bits core else .ok (t, core)
    tc.1.tans_backward_round tc.2 (step - 5)

/-- The `while self.dst < self.dst_end` loop of `decode`; every iteration
advances `dst` by one byte, so `dst_end - dst` bytes of fuel suffice. -/
def tansLoopF : Nat → TansDecoder → Core → Nat → Res (TansDecoder × Core)
  | 0, t, core, _ => if ptrLt t.dst t.dst_end then .error .fuel else .ok (t, core)
  | f + 1, t, core, step =>
    if ptrLt t.dst t.dst_end then do
      let tc ← tansStep t core step
      tansLoopF f tc.1 tc.2 ((step + 1) % 10)
    else .ok (t, core)

/-- `decode` (`src/tans.rs` lines 23-57): the `assert!`/`assert_eq!` guards
are modelled as early error exits; on success the five residual state bytes
are written at `dst_end`. -/
def TansDecoder.decode (t : TansDecoder) (core : Core) : Res Core :=
  if ptrLe t.ptr_f t.ptr_b then do
    let tc ← tansLoopF (t.dst_end.index - t.dst.index) t core 0
    let pb ← ptrAddInt tc.1.ptr_b (Int.fdiv tc.1.bitpos_f 8)
    let pf ← ptrAddInt pb (Int.fdiv tc.1.bitpos_b 8)
    if pf = tc.1.ptr_f then
      if (tc.1.state.foldl (fun l r => l ||| r) 0) &&&
          (18446744073709551615 - 255) = 0 then
        tc.2.set_bytes tc.1.dst_end (tc.1.state.map (· % 256))
      else .error .panicked
    else .error .panicked
  else .error .panicked

/-- The 32 block offsets shared by `reverse_sse` (`src/huffman.rs` lines
244-248) and `reverse_simd` (`src/core/huffman.rs`, `OFFSETS`). -/
def OFFSETS : List Nat :=
  [0x00, 0x80, 0x40, 0xC0, 0x20, 0xA0, 0x60, 0xE0, 0x10, 0x90, 0x50, 0xD0,
   0x30, 0xB0, 0x70, 0xF0, 0x08, 0x88, 0x48, 0xC8, 0x28, 0xA8, 0x68, 0xE8,
   0x18, 0x98, 0x58, 0xD8, 0x38, 0xB8, 0x78, 0xF8]

/-- An 8-byte load `input[o..o+8]` (`_mm_loadl_epi64` / `u8x8::from_slice` /
one `u64` table word). -/
def load8 (l : List Nat) (o : Nat) : List Nat := (l.drop o).take 8

/-- Byte interleave of two 8-byte half-vectors; `_mm_unpacklo_epi8` is
`interleaveL` of the two low halves, `_mm_unpackhi_epi8` of the two high
halves (likewise `u8x16::unpack_low` / `unpack_high` / `Simd::interleave`). -/
def interleaveL : List Nat → List Nat → List Nat
  | a :: as, b :: bs => a :: b :: interleaveL as bs
  | _, _ => []

/-- The three-level unpack network that `reverse_sse` (`src/huffman.rs`
lines 250-277: `t0..t3`, then `s0..s3`, then the final `t0..t3`) and
`reverse_simd` (`src/core/huffman.rs` lines 322-345: the three
`chunks_exact(2)` passes over `unpack_low`/`unpack_high`) perform on the
same eight 8-byte groups `g 0 .. g 7` of a block; returns the four 16-byte
result vectors in store order. -/
def shuffleNet (g : Nat → List Nat) :
    List Nat × List Nat × List Nat × List Nat :=
  let t0 := interleaveL (g 0) (g 1)
  let t1 := interleaveL (g 2) (g 3)
  let t2 := interleaveL (g 4) (g 5)
  let t3 := interleaveL (g 6) (g 7)
  let s0 := interleaveL (t0.take 8) (t1.take 8)
  let s1 := interleaveL (t2.take 8) (t3.take 8)
  let s2 := interleaveL (t0.drop 8) (t1.drop 8)
  let s3 := interleaveL (t2.drop 8) (t3.drop 8)
  (interleaveL (s0.take 8) (s1.take 8),
   interleaveL (s2.take 8) (s3.take 8),
   interleaveL (s0.drop 8) (s1.drop 8),
   interleaveL (s2.drop 8) (s3.drop 8))

/-- `u16::reverse_bits` (the 16-bit bit reversal used by `reverse_naive`). -/
def bitrev16 (x : Nat) : Nat :=
  (List.range 16).foldl (fun acc k => acc * 2 + (x >>> k) % 2) 0

/-- `reverse_naive` (`src/huffman.rs` lines 230-232):
`output[i] = input[(i as u16).reverse_bits() >> 5]` for `i < 2048`. -/
def reverse_naive (inp : List Nat) : List Nat :=
  (List.range 2048).map (fun i => inp.getD (bitrev16 i >>> 5) 0)

/-- The eight 8-byte stores of one `reverse_sse` block (`src/huffman.rs`
lines 279-300): vector `us.1` goes to output offsets `8k` and `8k + 1024`,
`us.2.1` to `8k + 256` / `8k + 1280`, `us.2.2.1` to `8k + 512` /
`8k + 1536`, `us.2.2.2` to `8k + 768` / `8k + 1792`. -/
def sseStoreBlock (acc : List Nat) (k : Nat)
    (us : List Nat × List Nat × List Nat × List Nat) : List Nat :=
  let a := writeBytes acc (8 * k) (us.1.take 8)
  let a := writeBytes a (8 * k + 1024) (us.1.drop 8)
  let a := writeBytes a (8 * k + 256) (us.2.1.take 8)
  let a := writeBytes a (8 * k + 1280) (us.2.1.drop 8)
  let a := writeBytes a (8 * k + 512) (us.2.2.1.take 8)
  let a := writeBytes a (8 * k + 1536) (us.2.2.1.drop 8)
  let a := writeBytes a (8 * k + 768) (us.2.2.2.take 8)
  writeBytes a (8 * k + 1792) (us.2.2.2.drop 8)

/-- `reverse_sse` (`src/huffman.rs` lines 236-301): block `k` loads the
eight groups at byte offsets `OFFSETS[k] + 256 * m`, shuffles, stores. -/
def reverse_sse (inp : List Nat) : List Nat :=
  (List.range 32).foldl
    (fun acc k =>
      sseStoreBlock acc k
        (shuffleNet (fun m => load8 inp (OFFSETS.getD k 0 + 256 * m))))
    (List.replicate 2048 0)

/-- The eight little-endian bytes of a `u64` word. -/
def bytesOf64 (w : Nat) : List Nat :=
  [w % 256, w / 256 % 256, w / 65536 % 256, w / 16777216 % 256,
   w / 4294967296 % 256, w / 1099511627776 % 256,
   w / 281474976710656 % 256, w / 72057594037927936 % 256]

/-- The 2064-byte Huffman table viewed as the 258 little-endian `u64`
words that `reverse_simd` receives (`input: &[u64; 258]`). -/
def bytesToWords (l : List Nat) : List Nat :=
  (List.range 258).map (fun q => leVal (load8 l (8 * q)))

/-- The eight word stores of one `reverse_simd` block
(`src/core/huffman.rs` lines 346-355): the two `u64` halves of vector
`us.1` go to word offsets `k` and `k + 128`, `us.2.1` to `k + 32` /
`k + 160`, `us.2.2.1` to `k + 64` / `k + 192`, `us.2.2.2` to `k + 96` /
`k + 224`. -/
def simdStoreBlock (accW : List Nat) (k : Nat)
    (us : List Nat × List Nat × List Nat × List Nat) : List Nat :=
  let a := accW.set k (leVal (us.1.take 8))
  let a := a.set (k + 128) (leVal (us.1.drop 8))
  let a := a.set (k + 32) (leVal (us.2.1.take 8))
  let a := a.set (k + 160) (leVal (us.2.1.drop 8))
  let a := a.set (k + 64) (leVal (us.2.2.1.take 8))
  let a := a.set (k + 192) (leVal (us.2.2.1.drop 8))
  let a := a.set (k + 96) (leVal (us.2.2.2.take 8))
  a.set (k + 224) (leVal (us.2.2.2.drop 8))

/-- `reverse_simd` (`src/core/huffman.rs` lines 322-361): block `k` splats
the words at `OFFSETS[k]/8 + 32 * m` into byte vectors, runs the same
unpack network, stores `u64` halves into a 256-word result, which is cast
back to 2048 bytes (`bytemuck::cast`). -/
def reverse_simd (ws : List Nat) : List Nat :=
  (((List.range 32).foldl
    (fun accW k =>
      simdStoreBlock accW k
        (shuffleNet (fun m =>
          bytesOf64 (ws.getD (OFFSETS.getD k 0 / 8 + 32 * m) 0))))
    (List.replicate 256 0)).map bytesOf64).flatten

/-- The component of the shuffle-network result stored at column `q`
(`us.1` for the `8k`/`8k+1024` stores, `us.2.1` for `8k+256`/`8k+1280`,
and so on). -/
def netPick (us : List Nat × List Nat × List Nat × List Nat) : Nat → List Nat
  | 0 => us.1
  | 1 => us.2.1
  | 2 => us.2.2.1
  | _ => us.2.2.2

/-- The low (`h = 0`) or high (`h ≠ 0`) 8-byte half of a 16-byte vector. -/
def halfOf (l : List Nat) (h : Nat) : List Nat :=
  if h = 0 then l.take 8 else l.drop 8

/-- 3-bit bit reversal (table form). -/
def rev3 (x : Nat) : Nat := [0, 4, 2, 6, 1, 5, 3, 7].getD x 0

/-- The input index feeding output position `i` of the block shuffle:
block `k = i/8 %% 32` reads group `rev3 (i %% 8)` at byte `rev3 (i / 256)`. -/
def sseIdx (i : Nat) : Nat :=
  256 * rev3 (i % 8) + OFFSETS.getD (i / 8 % 32) 0 + rev3 (i / 256)

theorem grow_length (l : List Nat) (size : Nat) :
    (grow l size).length = max l.length size := by
  unfold grow
  split <;> simp <;> omega

theorem grow_getD (l : List Nat) (size i : Nat) :
    (grow l size).getD i 0 = l.getD i 0 := by
  unfold grow
  split
  · rcases Nat.lt_or_ge i l.length with h | h
    · exact List.getD_append _ _ _ _ h
    · rw [List.getD_append_right _ _ _ _ h, List.getD_eq_default _ _ h,
        List.getD_eq_getElem?_getD, List.getElem?_replicate]
      split <;> rfl
  · rfl

theorem sliceRes_ok (l : List Nat) (i n : Nat) (h : i + n ≤ l.length) :
    sliceRes l i n = .ok ((l.drop i).take n) := by
  simp [sliceRes, h]

theorem sliceRes_err (l : List Nat) (i n : Nat) (h : l.length < i + n) :
    sliceRes l i n = .error .oob := by
  simp [sliceRes, Nat.not_le.mpr h]

theorem slice_getD_eq (l : List Nat) (i n : Nat) (h : i + n ≤ l.length) :
    (l.drop i).take n = (List.range n).map (fun j => l.getD (i + j) 0) := by
  apply List.ext_getElem
  · simp; omega
  · intro j h1 h2
    simp only [List.getElem_take, List.getElem_drop, List.getElem_map, List.getElem_range]
    rw [List.getD_eq_getElem?_getD, List.getElem?_eq_getElem (by simp at h1 ⊢; omega)]
    simp

/-- The interesting slice fact for grown buffers: after the implicit
`ensure` growth, reading `n` bytes at `i` returns the original bytes with
zeros substituted past the original end. -/
theorem grow_slice (l : List Nat) (i n : Nat) :
    sliceRes (grow l (i + n)) i n =
      .ok ((List.range n).map (fun j => l.getD (i + j) 0)) := by
  rw [sliceRes_ok _ _ _ (by rw [grow_length]; omega)]
  rw [slice_getD_eq _ _ _ (by rw [grow_length]; omega)]
  simp only [grow_getD]

theorem listGetRes_eq (l : List Nat) (i : Nat) :
    listGetRes l i = if i < l.length then .ok (l.getD i 0) else .error .oob := by
  unfold listGetRes
  rcases Nat.lt_or_ge i l.length with h | h
  · rw [if_pos h]
    simp [List.get?_eq_getElem?, List.getElem?_eq_getElem h,
      List.getD_eq_getElem?_getD]
  · rw [if_neg (Nat.not_lt.mpr h)]
    simp [List.get?_eq_getElem?, List.getElem?_eq_none h]

theorem writeBytes_length (l v : List Nat) (i : Nat) (h : i + v.length ≤ l.length) :
    (writeBytes l i v).length = l.length := by
  unfold writeBytes
  simp
  omega

theorem writeBytes_getD (l v : List Nat) (i p : Nat) (h : i + v.length ≤ l.length) :
    (writeBytes l i v).getD p 0 =
      if p < i then l.getD p 0
      else if p < i + v.length then v.getD (p - i) 0
      else l.getD p 0 := by
  have hti : (l.take i).length = i := by simp; omega
  have htv : (l.take i ++ v).length = i + v.length := by simp; omega
  unfold writeBytes
  rw [List.getD_eq_getElem?_getD, List.getElem?_append, htv]
  split
  · rename_i h1
    rw [List.getElem?_append, hti]
    split
    · rename_i h2
      rw [List.getElem?_take, if_pos h2, ← List.getD_eq_getElem?_getD]
    · rename_i h2
      exact (List.getD_eq_getElem?_getD _ _ _).symm
  · rename_i h1
    rw [List.getElem?_drop, ← List.getD_eq_getElem?_getD]
    have hp : i + v.length + (p - (i + v.length)) = p := by omega
    rw [hp]
    split <;> rfl

theorem get_byte_eq (c : Core) (p : Pointer) (h : p.into ≠ .Null) :
    c.get_byte p =
      if p.index < (c.space p.into).length then
        .ok ((c.space p.into).getD p.index 0)
      else .error .oob := by
  obtain ⟨pi, px⟩ := p
  cases pi
  case Null => exact absurd rfl h
  all_goals simp only [Core.get_byte, Core.space, listGetRes_eq]

/-- **C6** — counterexample to the claim as stated.  The claim says a
multi-byte read fails with `OutOfBounds` exactly when `offset + n` exceeds
the length of the addressed space, *for all four spaces*.  On the scratch
space, `get_slice` first grows the buffer (`ensure_scratch`), so a read of
4 bytes from an empty scratch space succeeds (returning zeros) even though
`0 + 4` exceeds the length `0`. -/
theorem get_le_bytes_scratch_grow_cx :
    (Core.space ⟨[], [], [], []⟩ .Scratch).length < 0 + 4 ∧
    Core.get_le_bytes ⟨[], [], [], []⟩ ⟨.Scratch, 0⟩ 4 =
      .ok (0, ⟨[], [], [0, 0, 0, 0], []⟩) :=
  ⟨by decide, by rfl⟩

/-- **C6** (amended): for `n ≤ 8`, `get_le`/`get_be` on the `input` and
`output` spaces fail exactly when `offset + n` exceeds the space length and
otherwise return the little- or big-endian value of those `n` bytes; on the
auto-growing `scratch` and `tmp` spaces they always succeed and return the
value of the `n` bytes with zeros substituted past the current end. -/
theorem get_le_be_bytes_bounds (c : Core) (p : Pointer) (n : Nat) (hn : n ≤ 8) :
    ((p.into = .Input ∨ p.into = .Output) →
      (p.index + n ≤ (c.space p.into).length →
        c.get_le_bytes p n = .ok (leVal (((c.space p.into).drop p.index).take n), c) ∧
        c.get_be_bytes p n = .ok (beVal (((c.space p.into).drop p.index).take n), c)) ∧
      ((c.space p.into).length < p.index + n →
        c.get_le_bytes p n = .error .oob ∧
        c.get_be_bytes p n = .error .oob)) ∧
    ((p.into = .Scratch ∨ p.into = .Temp) →
      ∃ c2,
        c.get_le_bytes p n =
          .ok (leVal ((List.range n).map fun j => (c.space p.into).getD (p.index + j) 0), c2) ∧
        c.get_be_bytes p n =
          .ok (beVal ((List.range n).map fun j => (c.space p.into).getD (p.index + j) 0), c2)) := by
  obtain ⟨pi, px⟩ := p
  constructor
  · rintro (hsp | hsp) <;> subst hsp
    · constructor
      · intro hb
        simp only [Core.space] at hb
        simp [Core.get_le_bytes, Core.get_be_bytes, Core.get_slice, hn,
          sliceRes_ok _ _ _ hb, Except.map, Core.space]
      · intro hb
        simp only [Core.space] at hb
        simp [Core.get_le_bytes, Core.get_be_bytes, Core.get_slice, hn,
          sliceRes_err _ _ _ hb, Except.map]
    · constructor
      · intro hb
        simp only [Core.space] at hb
        simp [Core.get_le_bytes, Core.get_be_bytes, Core.get_slice, hn,
          sliceRes_ok _ _ _ hb, Except.map, Core.space]
      · intro hb
        simp only [Core.space] at hb
        simp [Core.get_le_bytes, Core.get_be_bytes, Core.get_slice, hn,
          sliceRes_err _ _ _ hb, Except.map]
  · rintro (hsp | hsp) <;> subst hsp
    · refine ⟨Core.ensure_scratch c (px + n), ?_, ?_⟩ <;>
        simp [Core.get_le_bytes, Core.get_be_bytes, Core.get_slice, hn,
          grow_slice, Except.map, Core.space]
    · refine ⟨Core.ensure_tmp c (px + n), ?_, ?_⟩ <;>
        simp [Core.get_le_bytes, Core.get_be_bytes, Core.get_slice, hn,
          grow_slice, Except.map, Core.space]

/-- **C6** witness: a concrete in-bounds read on the input space. -/
theorem get_le_be_bytes_bounds_witness :
    (2 ≤ 8) ∧
    Core.get_le_bytes ⟨[7, 1], [], [], []⟩ ⟨.Input, 0⟩ 2 =
      .ok (263, ⟨[7, 1], [], [], []⟩) ∧
    Core.get_be_bytes ⟨[7, 1], [], [], []⟩ ⟨.Input, 0⟩ 2 =
      .ok (1793, ⟨[7, 1], [], [], []⟩) := by
  have h := ((get_le_be_bytes_bounds ⟨[7, 1], [], [], []⟩ ⟨.Input, 0⟩ 2
    (by decide)).1 (Or.inl rfl)).1 (by decide)
  exact ⟨by decide, h.1, h.2⟩

theorem repeatChunksF_fuel (src dst bytes : Nat) :
    ∀ (f n : Nat) (buf : List Nat), bytes ≤ n + 8 * f →
      repeatChunksF (f + 1) buf src dst bytes n =
        repeatChunksF f buf src dst bytes n := by
  intro f
  induction f with
  | zero =>
    intro n buf h
    show (if n < bytes then _ else buf) = buf
    rw [if_neg (by omega)]
  | succ m ih =>
    intro n buf h
    show (if n < bytes then _ else buf) = (if n < bytes then _ else buf)
    split
    · exact ih (n + 8) _ (by omega)
    · rfl

/-- The loop equation of the stride loop. -/
theorem repeatChunks_eq (buf : List Nat) (src dst bytes n : Nat) :
    repeatChunks buf src dst bytes n =
      if n < bytes then
        repeatChunks
          (writeBytes buf (dst + n) ((buf.drop (src + n)).take (min bytes (n + 8) - n)))
          src dst bytes (n + 8)
      else buf := by
  unfold repeatChunks
  cases hb : bytes with
  | zero =>
    show buf = if n < 0 then _ else buf
    rw [if_neg (by omega)]
  | succ b =>
    show (if n < b + 1 then _ else buf) = _
    split
    · rw [← repeatChunksF_fuel src dst (b + 1) b (n + 8) _ (by omega)]
    · rfl

theorem writeBytes_nil (l : List Nat) (i : Nat) : writeBytes l i [] = l := by
  unfold writeBytes
  simp

theorem chunk_slice_length (l : List Nat) (a b : Nat) :
    ((l.drop a).take b).length = min b (l.length - a) := by
  simp

theorem chunkStep_length (src dst bytes : Nat) (L : Nat)
    (hsrc : src + bytes ≤ L) (hdst : dst + bytes ≤ L)
    (buf : List Nat) (k : Nat) (hl : buf.length = L) :
    (chunkStep src dst bytes buf k).length = L := by
  unfold chunkStep
  rcases Nat.lt_or_ge (8 * k) bytes with hk | hk
  · rw [writeBytes_length]
    · exact hl
    · rw [chunk_slice_length, hl]
      omega
  · have : min bytes (8 * k + 8) - 8 * k = 0 := by omega
    rw [this]
    simp only [List.take_zero, writeBytes_nil, hl]

theorem chunkFold_length (src dst bytes : Nat) (L : Nat)
    (hsrc : src + bytes ≤ L) (hdst : dst + bytes ≤ L) (buf : List Nat)
    (hl : buf.length = L) (k : Nat) :
    ((List.range k).foldl (chunkStep src dst bytes) buf).length = L := by
  induction k with
  | zero => simpa using hl
  | succ m ih =>
    rw [List.range_succ, List.foldl_append, List.foldl_cons, List.foldl_nil]
    exact chunkStep_length src dst bytes L hsrc hdst _ m ih

theorem repeatChunks_getD_lt (src dst bytes : Nat) (L : Nat)
    (hsrc : src + bytes ≤ L) (hdst : dst + bytes ≤ L) :
    ∀ (d : Nat) (buf : List Nat) (n : Nat), bytes ≤ n + d → buf.length = L →
      ∀ p, p < dst + n →
        (repeatChunks buf src dst bytes n).getD p 0 = buf.getD p 0 := by
  intro d
  induction d with
  | zero =>
    intro buf n hb hl p hp
    rw [repeatChunks_eq, if_neg (by omega)]
  | succ m ih =>
    intro buf n hb hl p hp
    rw [repeatChunks_eq]
    split
    · rename_i hlt
      have hvlen : ((buf.drop (src + n)).take (min bytes (n + 8) - n)).length =
          min bytes (n + 8) - n := by
        rw [chunk_slice_length, hl]
        omega
      have hwb : dst + n + ((buf.drop (src + n)).take (min bytes (n + 8) - n)).length ≤
          buf.length := by
        rw [hvlen, hl]
        omega
      rw [ih _ (n + 8) (by omega) ?_ p (by omega)]
      · rw [writeBytes_getD _ _ _ _ hwb, if_pos hp]
      · rw [writeBytes_length _ _ _ hwb, hl]
    · rfl

theorem repeatChunks_unroll (src dst bytes : Nat) :
    ∀ (k : Nat) (buf : List Nat), 8 * k < bytes + 8 →
      repeatChunks buf src dst bytes 0 =
        repeatChunks ((List.range k).foldl (chunkStep src dst bytes) buf)
          src dst bytes (8 * k) := by
  intro k
  induction k with
  | zero => intro buf _; simp
  | succ m ih =>
    intro buf h
    rw [ih buf (by omega)]
    conv_lhs => rw [repeatChunks_eq]
    rw [if_pos (by omega)]
    rw [List.range_succ, List.foldl_append, List.foldl_cons, List.foldl_nil]
    have h8 : 8 * m + 8 = 8 * (m + 1) := by omega
    rw [h8]
    rfl

/-- The per-chunk characterization of the stride loop: within the strided
path, the bytes of chunk `k` in the final buffer equal the bytes at
`src + 8k ..` of the buffer as it stands after chunks `0 .. k-1`. -/
theorem repeatChunks_chunk_getD (src dst bytes : Nat) (L : Nat)
    (hsrc : src + bytes ≤ L) (hdst : dst + bytes ≤ L)
    (buf : List Nat) (hl : buf.length = L) (k j : Nat) (hj : j < 8)
    (hkj : 8 * k + j < bytes) :
    (repeatChunks buf src dst bytes 0).getD (dst + (8 * k + j)) 0 =
      ((List.range k).foldl (chunkStep src dst bytes) buf).getD
        (src + (8 * k + j)) 0 := by
  have hfl : ((List.range k).foldl (chunkStep src dst bytes) buf).length = L :=
    chunkFold_length src dst bytes L hsrc hdst buf hl k
  have hfl1 : ((List.range (k + 1)).foldl (chunkStep src dst bytes) buf).length = L :=
    chunkFold_length src dst bytes L hsrc hdst buf hl (k + 1)
  rw [repeatChunks_unroll src dst bytes (k + 1) buf (by omega)]
  rw [repeatChunks_getD_lt src dst bytes L hsrc hdst bytes
    ((List.range (k + 1)).foldl (chunkStep src dst bytes) buf) (8 * (k + 1))
    (by omega) hfl1 (dst + (8 * k + j)) (by omega)]
  rw [List.range_succ, List.foldl_append, List.foldl_cons, List.foldl_nil]
  set F := (List.range k).foldl (chunkStep src dst bytes) buf with hF
  have hstep : chunkStep src dst bytes F k =
      writeBytes F (dst + 8 * k)
        ((F.drop (src + 8 * k)).take (min bytes (8 * k + 8) - 8 * k)) := rfl
  rw [hstep]
  have hvlen : ((F.drop (src + 8 * k)).take (min bytes (8 * k + 8) - 8 * k)).length =
      min bytes (8 * k + 8) - 8 * k := by
    rw [chunk_slice_length, hfl]
    omega
  rw [writeBytes_getD _ _ _ _ (by rw [hvlen, hfl]; omega)]
  rw [hvlen, if_neg (by omega), if_pos (by omega)]
  have hidx : dst + (8 * k + j) - (dst + 8 * k) = j := by omega
  rw [hidx]
  rw [List.getD_eq_getElem?_getD, List.getElem?_take, if_pos (by omega),
    List.getElem?_drop, ← List.getD_eq_getElem?_getD]
  congr 1
  omega


theorem grow_eq_of_le (l : List Nat) (size : Nat) (h : size ≤ l.length) :
    grow l size = l := by
  unfold grow
  rw [if_neg (by omega)]

/-- **C2**: `repeat_copy_64` (`src/pointer.rs` 385-414, `src/kraken.rs`
2171-2189).  For a same-space call with `|dest - src| < n`, the `n`
destination bytes are produced in 8-byte strides: for every chunk `k` and
in-chunk position `j` (`8k + j < n`), the final byte at `dest + 8k + j`
equals the byte at `src + 8k + j` of the buffer as it stands after chunks
`0 .. k-1` have been written, so bytes written by earlier chunks are
re-read as source bytes. -/
theorem repeat_copy_64_stride (c c' : Core) (dest src : Pointer) (n : Nat)
    (hsp : dest.into = src.into)
    (hov : Nat.dist src.index dest.index < n)
    (h : c.repeat_copy_64 dest src n = .ok c')
    (k j : Nat) (hj : j < 8) (hkj : 8 * k + j < n) :
    (c'.space dest.into).getD (dest.index + (8 * k + j)) 0 =
      ((List.range k).foldl (chunkStep src.index dest.index n)
        (grow (c.space dest.into) (dest.index + n))).getD
        (src.index + (8 * k + j)) 0 := by
  obtain ⟨dI, dx⟩ := dest
  obtain ⟨sI, sx⟩ := src
  simp only at hsp hov ⊢
  subst hsp
  unfold Core.repeat_copy_64 at h
  rw [if_neg (by simp)] at h
  cases dI
  case Null => exact Except.noConfusion h
  case Input => exact Except.noConfusion h
  case Output =>
    simp only [repeatInBuf, Core.space] at h
    rw [if_neg (Nat.lt_asymm hov)] at h
    split at h
    case isFalse => exact Except.noConfusion h
    case isTrue hb =>
    injection h with h
    subst h
    show (repeatChunks c.output sx dx n 0).getD (dx + (8 * k + j)) 0 = _
    rw [show Core.space c .Output = c.output from rfl,
      grow_eq_of_le c.output (dx + n) hb.2]
    exact repeatChunks_chunk_getD sx dx n c.output.length hb.1 hb.2 c.output rfl
      k j hj hkj
  case Scratch =>
    simp only [repeatInBuf, Core.space, Core.ensure_scratch] at h
    rw [if_neg (Nat.lt_asymm hov)] at h
    split at h
    case isFalse => exact Except.noConfusion h
    case isTrue hb =>
    injection h with h
    subst h
    show (repeatChunks (grow c.scratch (dx + n)) sx dx n 0).getD (dx + (8 * k + j)) 0 = _
    rw [show Core.space c .Scratch = c.scratch from rfl]
    exact repeatChunks_chunk_getD sx dx n (grow c.scratch (dx + n)).length hb.1 hb.2
      (grow c.scratch (dx + n)) rfl k j hj hkj
  case Temp =>
    simp only [repeatInBuf, Core.space, Core.ensure_tmp] at h
    rw [if_neg (Nat.lt_asymm hov)] at h
    split at h
    case isFalse => exact Except.noConfusion h
    case isTrue hb =>
    injection h with h
    subst h
    show (repeatChunks (grow c.tmp (dx + n)) sx dx n 0).getD (dx + (8 * k + j)) 0 = _
    rw [show Core.space c .Temp = c.tmp from rfl]
    exact repeatChunks_chunk_getD sx dx n (grow c.tmp (dx + n)).length hb.1 hb.2
      (grow c.tmp (dx + n)) rfl k j hj hkj

/-- **C2** witness: a distance-1 overlapping copy of 11 bytes; chunk 1 of
the result re-reads a byte written by chunk 0 (value 8 at position 9, which
a plain memmove of the original source range would have made 9). -/
theorem repeat_copy_64_stride_witness :
    Core.repeat_copy_64 ⟨[], [1, 2, 3, 4, 5, 6, 7, 8, 9, 0, 0, 0], [], []⟩
        ⟨.Output, 1⟩ ⟨.Output, 0⟩ 11 =
      .ok ⟨[], [1, 1, 2, 3, 4, 5, 6, 7, 8, 8, 0, 0], [], []⟩ ∧
    (Core.space ⟨[], [1, 1, 2, 3, 4, 5, 6, 7, 8, 8, 0, 0], [], []⟩ .Output).getD
        (1 + (8 * 1 + 0)) 0 =
      ((List.range 1).foldl (chunkStep 0 1 11)
        (grow (Core.space ⟨[], [1, 2, 3, 4, 5, 6, 7, 8, 9, 0, 0, 0], [], []⟩ .Output)
          (1 + 11))).getD (0 + (8 * 1 + 0)) 0 := by
  constructor
  · rfl
  · exact repeat_copy_64_stride _ _ ⟨.Output, 1⟩ ⟨.Output, 0⟩ 11 rfl (by decide)
      (by rfl) 1 0 (by decide) (by decide)


/-- **C7** — counterexample to the claim as stated.  The claim puts
`cmd == 0` into the two-byte `(value - 511) * 64` copy shape, but the code
dispatches `cmd == 0` to the first branch (`cmd == 0 || cmd > 0x2f`), which
copies `!cmd & 0xF = 15` literal bytes and runs no two-byte decode: on this
input the iteration advances `dst` by 15 and `cmd_ptr_end` by 1, while the
claimed shape would copy `(0x203 - 511) * 64 = 256` bytes. -/
theorem rle_step_cmd0_cx :
    Core.get_byte
        ⟨[9, 9, 9, 9, 9, 9, 9, 9, 9, 9, 9, 9, 9, 3, 2, 0],
         List.replicate 20 0, [], []⟩ ⟨.Input, 15⟩ = .ok 0 ∧
    rle_step
        ⟨[9, 9, 9, 9, 9, 9, 9, 9, 9, 9, 9, 9, 9, 3, 2, 0],
         List.replicate 20 0, [], []⟩
        ⟨⟨.Input, 0⟩, ⟨.Input, 16⟩, ⟨.Output, 0⟩, ⟨.Output, 20⟩, 0⟩ =
      .ok (⟨[9, 9, 9, 9, 9, 9, 9, 9, 9, 9, 9, 9, 9, 3, 2, 0],
            [9, 9, 9, 9, 9, 9, 9, 9, 9, 9, 9, 9, 9, 3, 2, 0, 0, 0, 0, 0], [], []⟩,
           ⟨⟨.Input, 15⟩, ⟨.Input, 15⟩, ⟨.Output, 15⟩, ⟨.Output, 20⟩, 0⟩) ∧
    (leVal [3, 2] - 511) * 64 = 256 ∧ (15 : Nat) ≠ 256 := by
  refine ⟨by rfl, by rfl, by decide, by decide⟩

theorem rle_step_dispatch_copy64 (c : Core) (s : RleState) (cmd : Nat)
    (h1 : 1 ≤ s.cmd_ptr_end.index)
    (hc : c.get_byte ⟨s.cmd_ptr_end.into, s.cmd_ptr_end.index - 1⟩ = .ok cmd)
    (hcmd2 : 2 ≤ cmd % 256) (hcmd8 : cmd % 256 ≤ 8) :
    rle_step c s = rleShapeCopy64 c s := by
  unfold rle_step
  have hpe : ptrSubNat s.cmd_ptr_end 1 =
      .ok ⟨s.cmd_ptr_end.into, s.cmd_ptr_end.index - 1⟩ := by
    unfold ptrSubNat
    rw [if_pos h1]
  simp only [Bind.bind, Except.bind, hpe, hc]
  rw [if_neg (by omega), if_neg (by omega), if_neg (by omega), if_neg (by omega)]

/-- **C7** (amended): the two-byte `- 511, × 64` copy shape applies to the
command bytes `2 ≤ cmd ≤ 8` (that is, `cmd < 9` excluding `cmd == 0`,
which takes the nibble shape, and `cmd == 1`, which caches the RLE byte):
the iteration reads the two-byte little-endian value below the command
cursor, subtracts 511, multiplies by 64, and copies that many bytes forward
from the command-buffer copy cursor to the output. -/
theorem rle_step_copy64_branch (c : Core) (s : RleState) (cmd : Nat)
    (c' : Core) (s' : RleState)
    (h1 : 1 ≤ s.cmd_ptr_end.index)
    (hc : c.get_byte ⟨s.cmd_ptr_end.into, s.cmd_ptr_end.index - 1⟩ = .ok cmd)
    (hcmd2 : 2 ≤ cmd % 256) (hcmd8 : cmd % 256 ≤ 8)
    (h : rle_step c s = .ok (c', s')) :
    ∃ v cmid,
      c.get_le_bytes ⟨s.cmd_ptr_end.into, s.cmd_ptr_end.index - 2⟩ 2 = .ok (v, cmid) ∧
      511 ≤ v ∧
      s'.cmd_ptr_end = ⟨s.cmd_ptr_end.into, s.cmd_ptr_end.index - 2⟩ ∧
      s'.dst = s.dst + (v - 511) * 64 ∧
      s'.cmd_ptr = s.cmd_ptr + (v - 511) * 64 ∧
      s'.dst_end = s.dst_end ∧
      s'.rle_byte = s.rle_byte ∧
      cmid.copy_bytes s.dst s.cmd_ptr ((v - 511) * 64) = .ok c' := by
  rw [rle_step_dispatch_copy64 c s cmd h1 hc hcmd2 hcmd8] at h
  unfold rleShapeCopy64 at h
  simp only [Bind.bind, Except.bind] at h
  cases hpe2 : ptrSubNat s.cmd_ptr_end 2 with
  | error e => simp only [hpe2] at h; exact Except.noConfusion h
  | ok pe2 =>
  have hix2 : pe2 = ⟨s.cmd_ptr_end.into, s.cmd_ptr_end.index - 2⟩ := by
    unfold ptrSubNat at hpe2
    split at hpe2
    · injection hpe2 with hpe2
      exact hpe2.symm
    · exact Except.noConfusion hpe2
  simp only [hpe2] at h
  cases hle : c.get_le_bytes pe2 2 with
  | error e => simp only [hle] at h; exact Except.noConfusion h
  | ok vc =>
  simp only [hle] at h
  split at h
  case isTrue => exact Except.noConfusion h
  case isFalse hv =>
  cases hca : ptrSubPtr pe2 s.cmd_ptr with
  | error e => simp only [hca] at h; exact Except.noConfusion h
  | ok cavail =>
  simp only [hca] at h
  cases ha1 : assert_le ((vc.1 - 511) * 64) cavail with
  | error e => simp only [ha1] at h; exact Except.noConfusion h
  | ok u1 =>
  simp only [ha1] at h
  cases hda : ptrSubPtr s.dst_end s.dst with
  | error e => simp only [hda] at h; exact Except.noConfusion h
  | ok avail =>
  simp only [hda] at h
  cases ha2 : assert_le ((vc.1 - 511) * 64) avail with
  | error e => simp only [ha2] at h; exact Except.noConfusion h
  | ok u2 =>
  simp only [ha2] at h
  cases hcp : vc.2.copy_bytes s.dst s.cmd_ptr ((vc.1 - 511) * 64) with
  | error e => simp only [hcp] at h; exact Except.noConfusion h
  | ok cfin =>
  simp only [hcp] at h
  injection h with h
  injection h with hA hB
  refine ⟨vc.1, vc.2, ?_, by omega, ?_, ?_, ?_, ?_, ?_, ?_⟩
  · rw [← hix2, hle]
  · rw [← hB, ← hix2]
  · rw [← hB]
  · rw [← hB]
  · rw [← hB]
  · rw [← hB]
  · rw [hcp, hA]

/-- **C7** witness: command byte 2 over a 66-byte command buffer; the
iteration copies `(512 - 511) * 64 = 64` bytes. -/
theorem rle_step_copy64_branch_witness :
    (2 ≤ 2 % 256) ∧ (2 % 256 ≤ 8) ∧
    ∃ v cmid,
      Core.get_le_bytes
          ⟨List.replicate 64 7 ++ [0, 2], List.replicate 64 0, [], []⟩
          ⟨.Input, 66 - 2⟩ 2 = .ok (v, cmid) ∧
      511 ≤ v ∧
      RleState.cmd_ptr_end ⟨⟨.Input, 64⟩, ⟨.Input, 64⟩, ⟨.Output, 64⟩, ⟨.Output, 64⟩, 0⟩ =
        ⟨.Input, 66 - 2⟩ ∧
      RleState.dst ⟨⟨.Input, 64⟩, ⟨.Input, 64⟩, ⟨.Output, 64⟩, ⟨.Output, 64⟩, 0⟩ =
        Pointer.mk .Output 0 + (v - 511) * 64 ∧
      RleState.cmd_ptr ⟨⟨.Input, 64⟩, ⟨.Input, 64⟩, ⟨.Output, 64⟩, ⟨.Output, 64⟩, 0⟩ =
        Pointer.mk .Input 0 + (v - 511) * 64 ∧
      RleState.dst_end ⟨⟨.Input, 64⟩, ⟨.Input, 64⟩, ⟨.Output, 64⟩, ⟨.Output, 64⟩, 0⟩ =
        ⟨.Output, 64⟩ ∧
      RleState.rle_byte ⟨⟨.Input, 64⟩, ⟨.Input, 64⟩, ⟨.Output, 64⟩, ⟨.Output, 64⟩, 0⟩ = 0 ∧
      cmid.copy_bytes ⟨.Output, 0⟩ ⟨.Input, 0⟩ ((v - 511) * 64) =
        .ok ⟨List.replicate 64 7 ++ [0, 2], List.replicate 64 7, [], []⟩ := by
  refine ⟨by decide, by decide, ?_⟩
  exact rle_step_copy64_branch
    ⟨List.replicate 64 7 ++ [0, 2], List.replicate 64 0, [], []⟩
    ⟨⟨.Input, 0⟩, ⟨.Input, 66⟩, ⟨.Output, 0⟩, ⟨.Output, 64⟩, 0⟩ 2
    ⟨List.replicate 64 7 ++ [0, 2], List.replicate 64 7, [], []⟩
    ⟨⟨.Input, 64⟩, ⟨.Input, 64⟩, ⟨.Output, 64⟩, ⟨.Output, 64⟩, 0⟩
    (by decide) (by rfl) (by decide) (by decide) (by rfl)


/-- **C8**: the "excess bytes" flag.  If the packed-stream flag byte (the
byte inspected after the optional 8-byte prefix copy) has bit `0x80` set,
`read_lz_table` fails whatever the remaining input (`rest` arbitrary), via
the unconditional `assert_eq(flag & 0x80, 0)`; with the bit clear the build
proceeds with `rest` on the untouched cursors. -/
theorem read_lz_table_excess_flag (α : Type) (c : Core)
    (src src_end dst : Pointer) (offset : Nat)
    (rem : Nat) (hrem : ptrSubPtr src_end src = .ok rem) (h13 : 13 ≤ rem)
    (c1 : Core) (s1 d1 : Pointer)
    (hpre : lz_prefix_copy c src dst offset = .ok (c1, s1, d1))
    (flag : Nat) (hflag : c1.get_byte s1 = .ok flag) :
    (flag % 256 &&& 0x80 ≠ 0 →
      ∀ rest : Core → Pointer → Pointer → Res α,
        read_lz_table_start c src src_end dst offset rest = .error .assertFail) ∧
    (flag % 256 &&& 0x80 = 0 →
      ∀ rest : Core → Pointer → Pointer → Res α,
        read_lz_table_start c src src_end dst offset rest = rest c1 s1 d1) := by
  have hal : assert_le 13 rem = .ok () := by
    unfold assert_le
    rw [if_pos h13]
  constructor
  · intro hbit rest
    unfold read_lz_table_start
    simp only [Bind.bind, Except.bind, hrem, hal, hpre, hflag]
    rw [if_pos hbit]
    split <;> rfl
  · intro hbit rest
    unfold read_lz_table_start
    simp only [Bind.bind, Except.bind, hrem, hal, hpre, hflag]
    rw [if_neg (by simp [hbit])]

/-- **C8** witness: a 13-byte input whose flag byte is `0x80` is rejected;
with the identical input and flag byte `0x00` the build continues. -/
theorem read_lz_table_excess_flag_witness :
    ptrSubPtr ⟨.Input, 13⟩ ⟨.Input, 0⟩ = .ok 13 ∧ (13 ≤ 13) ∧
    lz_prefix_copy ⟨[128, 0, 0, 0, 0, 0, 0, 0, 0, 0, 0, 0, 0], [], [], []⟩
        ⟨.Input, 0⟩ ⟨.Output, 0⟩ 1 =
      .ok (⟨[128, 0, 0, 0, 0, 0, 0, 0, 0, 0, 0, 0, 0], [], [], []⟩,
           ⟨.Input, 0⟩, ⟨.Output, 0⟩) ∧
    Core.get_byte ⟨[128, 0, 0, 0, 0, 0, 0, 0, 0, 0, 0, 0, 0], [], [], []⟩
        ⟨.Input, 0⟩ = .ok 128 ∧
    (128 % 256 &&& 0x80 ≠ 0) ∧
    read_lz_table_start ⟨[128, 0, 0, 0, 0, 0, 0, 0, 0, 0, 0, 0, 0], [], [], []⟩
        ⟨.Input, 0⟩ ⟨.Input, 13⟩ ⟨.Output, 0⟩ 1
        (fun _ _ _ => (.ok 7 : Res Nat)) = .error .assertFail := by
  refine ⟨by rfl, by decide, by rfl, by rfl, by decide, ?_⟩
  exact (read_lz_table_excess_flag Nat
    ⟨[128, 0, 0, 0, 0, 0, 0, 0, 0, 0, 0, 0, 0], [], [], []⟩
    ⟨.Input, 0⟩ ⟨.Input, 13⟩ ⟨.Output, 0⟩ 1 13 (by rfl) (by decide)
    ⟨[128, 0, 0, 0, 0, 0, 0, 0, 0, 0, 0, 0, 0], [], [], []⟩
    ⟨.Input, 0⟩ ⟨.Output, 0⟩ (by rfl) 128 (by rfl)).1 (by decide)
    (fun _ _ _ => (.ok 7 : Res Nat))

/-- **C10** — counterexample to the claim as stated: a forward refill
entered with `bitpos = -8` (which satisfies the claim's only hypothesis
`bitpos ≤ 24`) completes without touching the state, so the final `bitpos`
is not in `[-7, 0]`. -/
theorem refill_neg_bitpos_cx :
    BitReader.refill ⟨⟨.Input, 0⟩, ⟨.Input, 0⟩, 0, -8⟩ ⟨[], [], [], []⟩ =
      .ok ⟨⟨.Input, 0⟩, ⟨.Input, 0⟩, 0, -8⟩ ∧
    ((-8 : Int) ≤ 24) ∧ ¬(-7 ≤ (-8 : Int)) :=
  ⟨rfl, by decide, by decide⟩

theorem refillGoF_spec (source : Core) :
    ∀ (f : Nat) (br : BitReader),
      -7 ≤ br.bitpos → br.bitpos ≤ 8 * (f : Int) →
      br.p_end.index ≤ (source.space br.p.into).length →
      ∃ br2, refillGoF f source br = .ok br2 ∧ -7 ≤ br2.bitpos ∧ br2.bitpos ≤ 0 ∧
        br2.p_end = br.p_end ∧ br2.p.into = br.p.into := by
  intro f
  induction f with
  | zero =>
    intro br h1 h2 h3
    refine ⟨br, ?_, h1, by omega, rfl, rfl⟩
    show (if 0 < br.bitpos then _ else _) = _
    rw [if_neg (by omega)]
  | succ m ih =>
    intro br h1 h2 h3
    by_cases hp : 0 < br.bitpos
    · have hcont : ∀ byteval : Nat,
          (if ptrLt br.p br.p_end then source.get_byte br.p else pure 0) = .ok byteval →
          ∃ br2, refillGoF (m + 1) source br = .ok br2 ∧ -7 ≤ br2.bitpos ∧
            br2.bitpos ≤ 0 ∧ br2.p_end = br.p_end ∧ br2.p.into = br.p.into := by
        intro byteval hbv
        obtain ⟨br2, hrec, hA, hB, hC, hD⟩ := ih
          { br with bits := (br.bits ||| (byteval % 256) <<< br.bitpos.toNat) % 4294967296,
                    bitpos := br.bitpos - 8, p := br.p + 1 }
          (by show -7 ≤ br.bitpos - 8; omega)
          (by show br.bitpos - 8 ≤ 8 * (m : Int); push_cast at h2; omega) h3
        refine ⟨br2, ?_, hA, hB, hC, hD⟩
        show (if 0 < br.bitpos then _ else _) = _
        rw [if_pos hp]
        by_cases hlt2 : ptrLt br.p br.p_end = true
        · rw [if_pos hlt2] at hbv ⊢
          rw [hbv]
          simp only [Bind.bind, Except.bind]
          exact hrec
        · rw [if_neg hlt2] at hbv ⊢
          simp only [pure, Except.pure, Except.ok.injEq] at hbv
          subst hbv
          simp only [Bind.bind, Except.bind, pure, Except.pure]
          exact hrec
      by_cases hlt : ptrLt br.p br.p_end = true
      · have hsame : br.p.into = br.p_end.into ∧ br.p.index < br.p_end.index := by
          unfold ptrLt at hlt
          simpa using hlt
        have hn : br.p.into ≠ .Null := by
          intro hnull
          rw [hnull] at h3
          simp [Core.space] at h3
          omega
        exact hcont ((source.space br.p.into).getD br.p.index 0)
          (by rw [if_pos hlt, get_byte_eq source br.p hn, if_pos (by omega)])
      · exact hcont 0 (by rw [if_neg hlt]; rfl)
    · refine ⟨br, ?_, h1, by omega, rfl, rfl⟩
      show (if 0 < br.bitpos then _ else _) = _
      rw [if_neg hp]

theorem refillBackGoF_spec (source : Core) :
    ∀ (f : Nat) (br : BitReader),
      -7 ≤ br.bitpos → br.bitpos ≤ 8 * (f : Int) →
      f ≤ br.p.index → br.p.index ≤ (source.space br.p.into).length →
      ∃ br2, refillBackGoF f source br = .ok br2 ∧ -7 ≤ br2.bitpos ∧ br2.bitpos ≤ 0 ∧
        br2.p_end = br.p_end ∧ br2.p.into = br.p.into := by
  intro f
  induction f with
  | zero =>
    intro br h1 h2 _ _
    refine ⟨br, ?_, h1, by omega, rfl, rfl⟩
    show (if 0 < br.bitpos then _ else _) = _
    rw [if_neg (by omega)]
  | succ m ih =>
    intro br h1 h2 h3 h4
    by_cases hp : 0 < br.bitpos
    · have hp1 : 1 ≤ br.p.index := by omega
      have hsub : ptrSubNat br.p 1 = .ok ⟨br.p.into, br.p.index - 1⟩ := by
        unfold ptrSubNat
        rw [if_pos hp1]
      have hcont : ∀ byteval : Nat,
          (if ptrGe ⟨br.p.into, br.p.index - 1⟩ br.p_end then
             source.get_byte ⟨br.p.into, br.p.index - 1⟩ else pure 0) = .ok byteval →
          ∃ br2, refillBackGoF (m + 1) source br = .ok br2 ∧ -7 ≤ br2.bitpos ∧
            br2.bitpos ≤ 0 ∧ br2.p_end = br.p_end ∧ br2.p.into = br.p.into := by
        intro byteval hbv
        obtain ⟨br2, hrec, hA, hB, hC, hD⟩ := ih
          { br with bits := (br.bits ||| (byteval % 256) <<< br.bitpos.toNat) % 4294967296,
                    bitpos := br.bitpos - 8, p := ⟨br.p.into, br.p.index - 1⟩ }
          (by show -7 ≤ br.bitpos - 8; omega)
          (by show br.bitpos - 8 ≤ 8 * (m : Int); push_cast at h2; omega)
          (by show m ≤ br.p.index - 1; omega)
          (by show br.p.index - 1 ≤ (source.space br.p.into).length; omega)
        refine ⟨br2, ?_, hA, hB, hC, hD⟩
        show (if 0 < br.bitpos then _ else _) = _
        rw [if_pos hp]
        rw [hsub]
        simp only [Bind.bind, Except.bind]
        by_cases hge : ptrGe ⟨br.p.into, br.p.index - 1⟩ br.p_end = true
        · rw [if_pos hge] at hbv ⊢
          rw [hbv]
          simp only [Bind.bind, Except.bind]
          exact hrec
        · rw [if_neg hge] at hbv ⊢
          simp only [pure, Except.pure, Except.ok.injEq] at hbv
          subst hbv
          simp only [Bind.bind, Except.bind, pure, Except.pure]
          exact hrec
      by_cases hge : ptrGe ⟨br.p.into, br.p.index - 1⟩ br.p_end = true
      · have hn : br.p.into ≠ .Null := by
          intro hnull
          rw [hnull] at h4
          simp [Core.space] at h4
          omega
        exact hcont ((source.space br.p.into).getD (br.p.index - 1) 0)
          (by rw [if_pos hge, get_byte_eq source ⟨br.p.into, br.p.index - 1⟩ hn,
                if_pos (show br.p.index - 1 < (source.space br.p.into).length by omega)])
      · exact hcont 0 (by rw [if_neg hge]; rfl)
    · refine ⟨br, ?_, h1, by omega, rfl, rfl⟩
      show (if 0 < br.bitpos then _ else _) = _
      rw [if_neg hp]

/-- **C10** — amended: a refill (forward or backward) entered with `bitpos`
in `[-7, 24]` completes without error and returns with `bitpos` in `[-7, 0]`
(so at least 24 bits are available), with `p_end` and the stream space
unchanged; past-the-end positions substitute zero bytes instead of failing.
Forward refills additionally need `p_end` to lie within the stream buffer
(reads between `p` and `p_end` are bounds-checked), and backward refills
need at least 3 bytes below `p` (the cursor pre-decrement would underflow
at offset 0) with `p` inside the buffer. -/
theorem refill_spec (source : Core) (br : BitReader)
    (h1 : -7 ≤ br.bitpos) (h2 : br.bitpos ≤ 24) :
    (br.p_end.index ≤ (source.space br.p.into).length →
      ∃ br2, br.refill source = .ok br2 ∧ -7 ≤ br2.bitpos ∧ br2.bitpos ≤ 0 ∧
        br2.p_end = br.p_end ∧ br2.p.into = br.p.into) ∧
    (3 ≤ br.p.index → br.p.index ≤ (source.space br.p.into).length →
      ∃ br2, br.refill_backwards source = .ok br2 ∧ -7 ≤ br2.bitpos ∧ br2.bitpos ≤ 0 ∧
        br2.p_end = br.p_end ∧ br2.p.into = br.p.into) := by
  constructor
  · intro h3
    obtain ⟨br2, hgo, hA, hB, hC, hD⟩ :=
      refillGoF_spec source 3 br h1 (by push_cast; omega) h3
    refine ⟨br2, ?_, hA, hB, hC, hD⟩
    unfold BitReader.refill
    rw [if_pos h2]
    exact hgo
  · intro h3 h4
    obtain ⟨br2, hgo, hA, hB, hC, hD⟩ :=
      refillBackGoF_spec source 3 br h1 (by push_cast; omega) h3 h4
    refine ⟨br2, ?_, hA, hB, hC, hD⟩
    unfold BitReader.refill_backwards
    rw [if_pos h2]
    exact hgo

/-- **C10** witness: on a 3-byte stream, a reader at offset 3 with
`bitpos = 24` refills forward (all three reads are past `p_end`, so zeros
are substituted) and backward (consuming the three bytes) without error,
finishing with `bitpos = 0`. -/
theorem refill_spec_witness :
    ((-7 : Int) ≤ 24 ∧ (24 : Int) ≤ 24 ∧ (0 : Nat) ≤ 3 ∧ (3 : Nat) ≤ 3) ∧
    (∃ br2, BitReader.refill ⟨⟨.Input, 3⟩, ⟨.Input, 0⟩, 0, 24⟩
        ⟨[171, 205, 239], [], [], []⟩ = .ok br2 ∧ -7 ≤ br2.bitpos ∧
        br2.bitpos ≤ 0 ∧ br2.p_end = ⟨.Input, 0⟩ ∧ br2.p.into = .Input) ∧
    (∃ br2, BitReader.refill_backwards ⟨⟨.Input, 3⟩, ⟨.Input, 0⟩, 0, 24⟩
        ⟨[171, 205, 239], [], [], []⟩ = .ok br2 ∧ -7 ≤ br2.bitpos ∧
        br2.bitpos ≤ 0 ∧ br2.p_end = ⟨.Input, 0⟩ ∧ br2.p.into = .Input) := by
  refine ⟨by decide, ?_, ?_⟩
  · exact (refill_spec ⟨[171, 205, 239], [], [], []⟩
      ⟨⟨.Input, 3⟩, ⟨.Input, 0⟩, 0, 24⟩ (by decide) (by decide)).1 (by decide)
  · exact (refill_spec ⟨[171, 205, 239], [], [], []⟩
      ⟨⟨.Input, 3⟩, ⟨.Input, 0⟩, 0, 24⟩ (by decide) (by decide)).2 (by decide) (by decide)

theorem two_pow_le_of_testBit (x i : Nat) (h : x.testBit i = true) : 2 ^ i ≤ x := by
  rw [Nat.testBit_to_div_mod, decide_eq_true_eq] at h
  have h1 : 1 ≤ x / 2 ^ i := by
    rcases Nat.eq_zero_or_pos (x / 2 ^ i) with h0 | h0
    · rw [h0] at h
      simp at h
    · exact h0
  calc 2 ^ i = 1 * 2 ^ i := (one_mul _).symm
    _ ≤ x := (Nat.le_div_iff_mul_le (Nat.pos_pow_of_pos i (by omega))).1 h1

theorem rotl32_testBit_lowbit (x n : Nat) (h4 : 4 ≤ n) (h18 : n ≤ 18) :
    (rotl32 (x ||| 1) n).testBit n = true := by
  unfold rotl32
  rw [Nat.mod_eq_of_lt (show n < 32 by omega)]
  have hodd : (x ||| 1) % 4294967296 % 2 = 1 := by
    rw [Nat.mod_mod_of_dvd _ (by norm_num : (2 : Nat) ∣ 4294967296)]
    have h0 : (x ||| 1).testBit 0 = true := by
      rw [Nat.testBit_or]
      simp
    rw [Nat.testBit_to_div_mod, decide_eq_true_eq] at h0
    simpa using h0
  rw [show (4294967296 : Nat) = 2 ^ 32 from by norm_num,
    Nat.testBit_mod_two_pow, Nat.testBit_or, Nat.testBit_shiftLeft]
  have hb0 : ((x ||| 1) % 2 ^ 32).testBit 0 = true := by
    rw [Nat.testBit_to_div_mod, decide_eq_true_eq]
    simpa using hodd
  rw [show n - n = 0 from by omega, hb0]
  simp [show n < 32 by omega]

/-- **C4** — counterexample to the claim as stated: with `v = 0x0F`,
`bits = 0xF0000000` and `bitpos = 20` at the end of the stream, `n = 4` and
`w = rotl32 (bits | 1) 4 = 31`; `ReadDistance` returns 263 (its mask
`(2 << 4) - 1 = 31` keeps five low bits), while the claim's low `2^4 - 1`
mask would give `(w & 15) << 4 + (v & 0xF) - 248 = 7 ≠ 263`. -/
theorem read_distance_mask_cx :
    BitReader.read_distance ⟨⟨.Input, 0⟩, ⟨.Input, 0⟩, 4026531840, 20⟩
      ⟨[], [], [], []⟩ 15 =
      .ok (⟨⟨.Input, 3⟩, ⟨.Input, 0⟩, 0, 0⟩, 263) ∧
    (rotl32 (4026531840 ||| 1) 4 &&& (2 ^ 4 - 1)) <<< 4 + (15 &&& 0xF) - 248 = 7 ∧
    (263 : Int) ≠ 7 := by
  refine ⟨by rfl, by decide, by decide⟩

/-- **C4** — amended: for `v < 0xF0`, `ReadDistance` and `ReadDistanceB`
refill (forward resp. backward) the state whose accumulator keeps `w` with
the mask bits cleared and whose `bitpos` has advanced by `n = (v >> 4) + 4`,
and return the distance `((w & m) << 4) + (v & 0xF) - 248` computed without
wrap-around (it is at least 8), where `w` is `bits | 1` rotated left by `n`
and the mask `m = (2 << n) - 1` is the low `2^(n+1) - 1` mask — `n + 1` low
bits, not the claimed `2^n - 1`. -/
theorem read_distance_short_spec (br : BitReader) (source : Core) (v : Nat)
    (hv : v < 0xF0) :
    ∃ D : Int,
      BitReader.read_distance br source v =
        (BitReader.refill
          { br with bitpos := br.bitpos + ((v >>> 4) + 4),
                    bits := rotl32 (br.bits ||| 1) ((v >>> 4) + 4) &&&
                      (4294967295 - (2 <<< ((v >>> 4) + 4) - 1)) } source).map
          (fun br3 => (br3, D)) ∧
      BitReader.read_distance_b br source v =
        (BitReader.refill_backwards
          { br with bitpos := br.bitpos + ((v >>> 4) + 4),
                    bits := rotl32 (br.bits ||| 1) ((v >>> 4) + 4) &&&
                      (4294967295 - (2 <<< ((v >>> 4) + 4) - 1)) } source).map
          (fun br3 => (br3, D)) ∧
      D = ((rotl32 (br.bits ||| 1) ((v >>> 4) + 4) &&&
              (2 <<< ((v >>> 4) + 4) - 1)) <<< 4 + (v &&& 0xF) : Nat) - 248 ∧
      2 <<< ((v >>> 4) + 4) - 1 = 2 ^ ((v >>> 4) + 5) - 1 ∧
      8 ≤ D := by
  set n := (v >>> 4) + 4 with hn
  have hn4 : 4 ≤ n := Nat.le_add_left 4 (v >>> 4)
  have hn18 : n ≤ 18 := by
    have hv14 : v >>> 4 ≤ 14 := by
      rw [Nat.shiftRight_eq_div_pow]
      have h24 : (2 : Nat) ^ 4 = 16 := by norm_num
      rw [h24]
      omega
    omega
  set W := rotl32 (br.bits ||| 1) n with hW
  have hWbit : W.testBit n = true := rotl32_testBit_lowbit br.bits n hn4 hn18
  have hshift2 : 2 <<< n = 2 ^ (n + 1) := by
    rw [Nat.shiftLeft_eq]
    ring
  set A := W &&& (2 <<< n - 1) with hAdef
  have hA : A = W % 2 ^ (n + 1) := by
    rw [hAdef, hshift2, Nat.and_pow_two_sub_one_eq_mod]
  have hlow : 2 ^ n ≤ A := by
    rw [hA]
    apply two_pow_le_of_testBit
    rw [Nat.testBit_mod_two_pow]
    simp [hWbit]
  have hhigh : A < 2 ^ (n + 1) := by
    rw [hA]
    exact Nat.mod_lt _ (by positivity)
  have h16 : 16 ≤ 2 ^ n := by
    calc (16 : Nat) = 2 ^ 4 := by norm_num
      _ ≤ 2 ^ n := Nat.pow_le_pow_right (by omega) hn4
  have h19 : 2 ^ (n + 1) ≤ 524288 := by
    calc 2 ^ (n + 1) ≤ 2 ^ 19 := Nat.pow_le_pow_right (by omega) (by omega)
      _ = 524288 := by norm_num
  have hVeq : v &&& 0xF = v % 16 := by
    have h1516 : (0xF : Nat) = 2 ^ 4 - 1 := by norm_num
    rw [h1516, Nat.and_pow_two_sub_one_eq_mod]
  have hA16 : A <<< 4 = A * 16 := by
    rw [Nat.shiftLeft_eq]
  have hX1 : 256 ≤ A * 16 + (v &&& 0xF) := by omega
  have hX2 : A * 16 + (v &&& 0xF) < 8388624 := by
    rw [hVeq]
    omega
  have hrv : (A * 16 + (v &&& 0xF) + (4294967296 - 248)) % 4294967296 =
      A * 16 + (v &&& 0xF) - 248 := by omega
  have hD : toInt32 ((A <<< 4 + (v &&& 0xF) + (4294967296 - 248)) % 4294967296) =
      ((A <<< 4 + (v &&& 0xF) : Nat) : Int) - 248 := by
    rw [hA16, hrv]
    unfold toInt32
    rw [Nat.mod_eq_of_lt (by omega)]
    rw [if_pos (by omega)]
    rw [Nat.cast_sub (by omega : 248 ≤ A * 16 + (v &&& 0xF))]
    norm_num
  refine ⟨toInt32 ((A <<< 4 + (v &&& 0xF) + (4294967296 - 248)) % 4294967296),
    ?_, ?_, hD, ?_, ?_⟩
  · unfold BitReader.read_distance
    rw [if_pos hv]
    rfl
  · unfold BitReader.read_distance_b
    rw [if_pos hv]
    rfl
  · rw [hshift2]
  · rw [hD, hA16]
    omega

/-- **C4** witness: the amended theorem applied at `v = 15`,
`bits = 0xF0000000`, `bitpos = 20`, over an empty input stream. -/
theorem read_distance_short_spec_witness :
    (15 < 0xF0) ∧
    (∃ D : Int,
      BitReader.read_distance ⟨⟨.Input, 0⟩, ⟨.Input, 0⟩, 4026531840, 20⟩
          ⟨[], [], [], []⟩ 15 =
        (BitReader.refill
          ⟨⟨.Input, 0⟩, ⟨.Input, 0⟩,
           rotl32 (4026531840 ||| 1) ((15 >>> 4) + 4) &&&
             (4294967295 - (2 <<< ((15 >>> 4) + 4) - 1)),
           20 + ((15 >>> 4) + 4)⟩ ⟨[], [], [], []⟩).map (fun br3 => (br3, D)) ∧
      BitReader.read_distance_b ⟨⟨.Input, 0⟩, ⟨.Input, 0⟩, 4026531840, 20⟩
          ⟨[], [], [], []⟩ 15 =
        (BitReader.refill_backwards
          ⟨⟨.Input, 0⟩, ⟨.Input, 0⟩,
           rotl32 (4026531840 ||| 1) ((15 >>> 4) + 4) &&&
             (4294967295 - (2 <<< ((15 >>> 4) + 4) - 1)),
           20 + ((15 >>> 4) + 4)⟩ ⟨[], [], [], []⟩).map (fun br3 => (br3, D)) ∧
      D = ((rotl32 (4026531840 ||| 1) ((15 >>> 4) + 4) &&&
              (2 <<< ((15 >>> 4) + 4) - 1)) <<< 4 + (15 &&& 0xF) : Nat) - 248 ∧
      2 <<< ((15 >>> 4) + 4) - 1 = 2 ^ ((15 >>> 4) + 5) - 1 ∧
      8 ≤ D) :=
  ⟨by decide, read_distance_short_spec ⟨⟨.Input, 0⟩, ⟨.Input, 0⟩, 4026531840, 20⟩
    ⟨[], [], [], []⟩ 15 (by decide)⟩

/-- **C3**: a tANS decode that returns successfully ran the interleaved
loop to `dst = dst_end`, and at that point the stream pointers satisfy
`ptr_b + (bitpos_f >> 3) + (bitpos_b >> 3) = ptr_f`, the interleaved states
satisfy `(s0 | s1 | s2 | s3 | s4) & ~0xFF = 0`, and the output is the
loop's buffer with the residual state bytes written at `dst_end`; when
either condition fails `decode` errors instead. -/
theorem tans_decode_final_invariants (t : TansDecoder) (core : Core) (out : Core)
    (h : t.decode core = .ok out) :
    ∃ t2 core2,
      tansLoopF (t.dst_end.index - t.dst.index) t core 0 = .ok (t2, core2) ∧
      (∃ pb, ptrAddInt t2.ptr_b (Int.fdiv t2.bitpos_f 8) = .ok pb ∧
        ptrAddInt pb (Int.fdiv t2.bitpos_b 8) = .ok t2.ptr_f) ∧
      (t2.state.foldl (fun l r => l ||| r) 0) &&& (18446744073709551615 - 255) = 0 ∧
      core2.set_bytes t2.dst_end (t2.state.map (· % 256)) = .ok out := by
  unfold TansDecoder.decode at h
  by_cases hle : ptrLe t.ptr_f t.ptr_b = true
  case neg =>
    rw [if_neg hle] at h
    exact Except.noConfusion h
  rw [if_pos hle] at h
  simp only [Bind.bind, Except.bind] at h
  cases hloop : tansLoopF (t.dst_end.index - t.dst.index) t core 0 with
  | error e =>
    simp only [hloop] at h
    exact Except.noConfusion h
  | ok tc =>
    simp only [hloop] at h
    cases hpb : ptrAddInt tc.1.ptr_b (Int.fdiv tc.1.bitpos_f 8) with
    | error e =>
      simp only [hpb] at h
      exact Except.noConfusion h
    | ok pb =>
      simp only [hpb] at h
      cases hpf : ptrAddInt pb (Int.fdiv tc.1.bitpos_b 8) with
      | error e =>
        simp only [hpf] at h
        exact Except.noConfusion h
      | ok pf =>
        simp only [hpf] at h
        by_cases heq : pf = tc.1.ptr_f
        case neg =>
          rw [if_neg heq] at h
          exact Except.noConfusion h
        rw [if_pos heq] at h
        by_cases hor : (tc.1.state.foldl (fun l r => l ||| r) 0) &&&
            (18446744073709551615 - 255) = 0
        case neg =>
          rw [if_neg hor] at h
          exact Except.noConfusion h
        rw [if_pos hor] at h
        exact ⟨tc.1, tc.2, rfl, ⟨pb, hpb, heq ▸ hpf⟩, hor, h⟩

/-- **C3** witness: a decoder whose output range is already empty
(`dst = dst_end`) with residual states `[1, 2, 3, 4, 5]` and balanced
stream pointers decodes successfully, writing the five state bytes. -/
theorem tans_decode_final_invariants_witness :
    TansDecoder.decode
      ⟨[], ⟨.Output, 0⟩, ⟨.Output, 0⟩, ⟨.Input, 0⟩, ⟨.Input, 0⟩, 0, 0, 0, 0,
       [1, 2, 3, 4, 5]⟩
      ⟨[], [9, 9, 9, 9, 9], [], []⟩ = .ok ⟨[], [1, 2, 3, 4, 5], [], []⟩ ∧
    ∃ t2 core2,
      tansLoopF 0
        ⟨[], ⟨.Output, 0⟩, ⟨.Output, 0⟩, ⟨.Input, 0⟩, ⟨.Input, 0⟩, 0, 0, 0, 0,
         [1, 2, 3, 4, 5]⟩
        ⟨[], [9, 9, 9, 9, 9], [], []⟩ 0 = .ok (t2, core2) ∧
      (∃ pb, ptrAddInt t2.ptr_b (Int.fdiv t2.bitpos_f 8) = .ok pb ∧
        ptrAddInt pb (Int.fdiv t2.bitpos_b 8) = .ok t2.ptr_f) ∧
      (t2.state.foldl (fun l r => l ||| r) 0) &&& (18446744073709551615 - 255) = 0 ∧
      core2.set_bytes t2.dst_end (t2.state.map (· % 256)) =
        .ok ⟨[], [1, 2, 3, 4, 5], [], []⟩ :=
  ⟨rfl, tans_decode_final_invariants
    ⟨[], ⟨.Output, 0⟩, ⟨.Output, 0⟩, ⟨.Input, 0⟩, ⟨.Input, 0⟩, 0, 0, 0, 0,
     [1, 2, 3, 4, 5]⟩
    ⟨[], [9, 9, 9, 9, 9], [], []⟩ ⟨[], [1, 2, 3, 4, 5], [], []⟩ rfl⟩

theorem take_getD (l : List Nat) (n p : Nat) (h : p < n) :
    (l.take n).getD p 0 = l.getD p 0 := by
  rw [List.getD_eq_getElem?_getD, List.getElem?_take, if_pos h,
    ← List.getD_eq_getElem?_getD]

theorem drop_getD (l : List Nat) (n p : Nat) :
    (l.drop n).getD p 0 = l.getD (n + p) 0 := by
  rw [List.getD_eq_getElem?_getD, List.getElem?_drop,
    ← List.getD_eq_getElem?_getD]

theorem set_getD (l : List Nat) (q p w : Nat) :
    (l.set q w).getD p 0 =
      if q = p ∧ p < l.length then w else l.getD p 0 := by
  rw [List.getD_eq_getElem?_getD, List.getElem?_set]
  by_cases hqp : q = p
  · subst hqp
    by_cases hl : q < l.length
    · rw [if_pos rfl, if_pos hl, if_pos ⟨rfl, hl⟩]
      rfl
    · rw [if_pos rfl, if_neg hl, if_neg (by simp [hl])]
      rw [show (none : Option Nat).getD 0 = 0 from rfl, List.getD_eq_default]
      omega
  · rw [if_neg hqp, if_neg (by simp [hqp]), ← List.getD_eq_getElem?_getD]

theorem getD_map0 (f : Nat → Nat) (hf : f 0 = 0) (l : List Nat) (p : Nat) :
    (l.map f).getD p 0 = f (l.getD p 0) := by
  rw [List.getD_eq_getElem?_getD, List.getElem?_map,
    List.getD_eq_getElem?_getD]
  cases l[p]? with
  | none => simpa using hf.symm
  | some v => rfl

theorem load8_length (l : List Nat) (o : Nat) (h : o + 8 ≤ l.length) :
    (load8 l o).length = 8 := by
  simp [load8]
  omega

theorem load8_getD (l : List Nat) (o p : Nat) (h : p < 8) :
    (load8 l o).getD p 0 = l.getD (o + p) 0 := by
  rw [load8, take_getD _ _ _ h, drop_getD]

theorem interleaveL_length (a b : List Nat) (h : a.length = b.length) :
    (interleaveL a b).length = 2 * a.length := by
  induction a generalizing b with
  | nil =>
    cases b with
    | nil => rfl
    | cons y ys => simp at h
  | cons x xs ih =>
    cases b with
    | nil => simp at h
    | cons y ys =>
      simp only [interleaveL, List.length_cons] at h ⊢
      rw [ih ys (by omega)]
      omega

theorem interleaveL_getD (a b : List Nat) (h : a.length = b.length) (p : Nat) :
    (interleaveL a b).getD p 0 =
      if p % 2 = 0 then a.getD (p / 2) 0 else b.getD (p / 2) 0 := by
  induction a generalizing b p with
  | nil =>
    cases b with
    | nil =>
      simp only [interleaveL]
      split <;> rfl
    | cons y ys => simp at h
  | cons x xs ih =>
    cases b with
    | nil => simp at h
    | cons y ys =>
      match p with
      | 0 => rfl
      | 1 => rfl
      | p + 2 =>
        show (interleaveL xs ys).getD p 0 = _
        rw [ih ys (by simpa using h) p]
        have h2 : (p + 2) / 2 = p / 2 + 1 := by omega
        have h3 : (p + 2) % 2 = p % 2 := by omega
        rw [h2, h3]
        split <;> rfl

theorem list_len8 (l : List Nat) (h : l.length = 8) :
    ∃ b0 b1 b2 b3 b4 b5 b6 b7, l = [b0, b1, b2, b3, b4, b5, b6, b7] := by
  cases l with
  | nil => simp at h
  | cons b0 l =>
  cases l with
  | nil => simp at h
  | cons b1 l =>
  cases l with
  | nil => simp at h
  | cons b2 l =>
  cases l with
  | nil => simp at h
  | cons b3 l =>
  cases l with
  | nil => simp at h
  | cons b4 l =>
  cases l with
  | nil => simp at h
  | cons b5 l =>
  cases l with
  | nil => simp at h
  | cons b6 l =>
  cases l with
  | nil => simp at h
  | cons b7 l =>
  cases l with
  | nil => exact ⟨b0, b1, b2, b3, b4, b5, b6, b7, rfl⟩
  | cons b8 l => simp at h

theorem shuffleNet_lengths (g : Nat → List Nat) (h : ∀ m, m < 8 → (g m).length = 8) :
    (shuffleNet g).1.length = 16 ∧ (shuffleNet g).2.1.length = 16 ∧
    (shuffleNet g).2.2.1.length = 16 ∧ (shuffleNet g).2.2.2.length = 16 := by
  obtain ⟨a0, a1, a2, a3, a4, a5, a6, a7, hg0⟩ := list_len8 (g 0) (h 0 (by omega))
  obtain ⟨b0, b1, b2, b3, b4, b5, b6, b7, hg1⟩ := list_len8 (g 1) (h 1 (by omega))
  obtain ⟨d0, d1, d2, d3, d4, d5, d6, d7, hg2⟩ := list_len8 (g 2) (h 2 (by omega))
  obtain ⟨e0, e1, e2, e3, e4, e5, e6, e7, hg3⟩ := list_len8 (g 3) (h 3 (by omega))
  obtain ⟨f0, f1, f2, f3, f4, f5, f6, f7, hg4⟩ := list_len8 (g 4) (h 4 (by omega))
  obtain ⟨p0, p1, p2, p3, p4, p5, p6, p7, hg5⟩ := list_len8 (g 5) (h 5 (by omega))
  obtain ⟨q0, q1, q2, q3, q4, q5, q6, q7, hg6⟩ := list_len8 (g 6) (h 6 (by omega))
  obtain ⟨t0, t1, t2, t3, t4, t5, t6, t7, hg7⟩ := list_len8 (g 7) (h 7 (by omega))
  simp only [shuffleNet, hg0, hg1, hg2, hg3, hg4, hg5, hg6, hg7]
  exact ⟨rfl, rfl, rfl, rfl⟩

theorem shuffleNet_getD (g : Nat → List Nat) (h : ∀ m, m < 8 → (g m).length = 8)
    (c r : Nat) (hc : c < 8) (hr : r < 8) :
    (netPick (shuffleNet g) (c % 4)).getD (c / 4 * 8 + r) 0 =
      (g (rev3 r)).getD (rev3 c) 0 := by
  obtain ⟨a0, a1, a2, a3, a4, a5, a6, a7, hg0⟩ := list_len8 (g 0) (h 0 (by omega))
  obtain ⟨b0, b1, b2, b3, b4, b5, b6, b7, hg1⟩ := list_len8 (g 1) (h 1 (by omega))
  obtain ⟨d0, d1, d2, d3, d4, d5, d6, d7, hg2⟩ := list_len8 (g 2) (h 2 (by omega))
  obtain ⟨e0, e1, e2, e3, e4, e5, e6, e7, hg3⟩ := list_len8 (g 3) (h 3 (by omega))
  obtain ⟨f0, f1, f2, f3, f4, f5, f6, f7, hg4⟩ := list_len8 (g 4) (h 4 (by omega))
  obtain ⟨p0, p1, p2, p3, p4, p5, p6, p7, hg5⟩ := list_len8 (g 5) (h 5 (by omega))
  obtain ⟨q0, q1, q2, q3, q4, q5, q6, q7, hg6⟩ := list_len8 (g 6) (h 6 (by omega))
  obtain ⟨t0, t1, t2, t3, t4, t5, t6, t7, hg7⟩ := list_len8 (g 7) (h 7 (by omega))
  have e0 : rev3 0 = 0 := rfl
  have e1 : rev3 1 = 4 := rfl
  have e2 : rev3 2 = 2 := rfl
  have e3 : rev3 3 = 6 := rfl
  have e4 : rev3 4 = 1 := rfl
  have e5 : rev3 5 = 5 := rfl
  have e6 : rev3 6 = 3 := rfl
  have e7 : rev3 7 = 7 := rfl
  interval_cases c <;> interval_cases r <;>
    simp only [shuffleNet, netPick, e0, e1, e2, e3, e4, e5, e6, e7,
      hg0, hg1, hg2, hg3, hg4, hg5, hg6, hg7] <;> rfl

theorem writeBytes_getD1 (l v : List Nat) (i p : Nat) (h : i + v.length ≤ l.length) :
    (writeBytes l i v).getD p 0 =
      if i ≤ p ∧ p < i + v.length then v.getD (p - i) 0 else l.getD p 0 := by
  rw [writeBytes_getD _ _ _ _ h]
  by_cases h1 : p < i
  · rw [if_pos h1, if_neg (by omega)]
  · by_cases h2 : p < i + v.length
    · rw [if_neg h1, if_pos h2, if_pos (by omega)]
    · rw [if_neg h1, if_neg h2, if_neg (by omega)]

theorem half_lengths (u : List Nat) (hu : u.length = 16) :
    (u.take 8).length = 8 ∧ (u.drop 8).length = 8 := by
  constructor <;> simp [hu]

theorem sseStoreBlock_length (acc : List Nat) (k : Nat)
    (us : List Nat × List Nat × List Nat × List Nat) (hk : k < 32)
    (hlen : acc.length = 2048)
    (h1 : us.1.length = 16) (h2 : us.2.1.length = 16)
    (h3 : us.2.2.1.length = 16) (h4 : us.2.2.2.length = 16) :
    (sseStoreBlock acc k us).length = 2048 := by
  obtain ⟨t1, d1⟩ := half_lengths _ h1
  obtain ⟨t2, d2⟩ := half_lengths _ h2
  obtain ⟨t3, d3⟩ := half_lengths _ h3
  obtain ⟨t4, d4⟩ := half_lengths _ h4
  unfold sseStoreBlock
  set a1 := writeBytes acc (8 * k) (us.1.take 8) with ha1
  have l1 : a1.length = 2048 := by rw [ha1, writeBytes_length _ _ _ (by omega), hlen]
  set a2 := writeBytes a1 (8 * k + 1024) (us.1.drop 8) with ha2
  have l2 : a2.length = 2048 := by rw [ha2, writeBytes_length _ _ _ (by omega), l1]
  set a3 := writeBytes a2 (8 * k + 256) (us.2.1.take 8) with ha3
  have l3 : a3.length = 2048 := by rw [ha3, writeBytes_length _ _ _ (by omega), l2]
  set a4 := writeBytes a3 (8 * k + 1280) (us.2.1.drop 8) with ha4
  have l4 : a4.length = 2048 := by rw [ha4, writeBytes_length _ _ _ (by omega), l3]
  set a5 := writeBytes a4 (8 * k + 512) (us.2.2.1.take 8) with ha5
  have l5 : a5.length = 2048 := by rw [ha5, writeBytes_length _ _ _ (by omega), l4]
  set a6 := writeBytes a5 (8 * k + 1536) (us.2.2.1.drop 8) with ha6
  have l6 : a6.length = 2048 := by rw [ha6, writeBytes_length _ _ _ (by omega), l5]
  set a7 := writeBytes a6 (8 * k + 768) (us.2.2.2.take 8) with ha7
  have l7 : a7.length = 2048 := by rw [ha7, writeBytes_length _ _ _ (by omega), l6]
  rw [writeBytes_length _ _ _ (by rw [d4, l7]; omega), l7]

theorem sseStoreBlock_getD (acc : List Nat) (k : Nat)
    (us : List Nat × List Nat × List Nat × List Nat) (hk : k < 32)
    (hlen : acc.length = 2048)
    (h1 : us.1.length = 16) (h2 : us.2.1.length = 16)
    (h3 : us.2.2.1.length = 16) (h4 : us.2.2.2.length = 16)
    (i : Nat) (hi : i < 2048) :
    (sseStoreBlock acc k us).getD i 0 =
      if i / 8 % 32 = k then
        (netPick us (i / 256 % 4)).getD (i / 256 / 4 * 8 + i % 8) 0
      else acc.getD i 0 := by
  obtain ⟨t1, d1⟩ := half_lengths _ h1
  obtain ⟨t2, d2⟩ := half_lengths _ h2
  obtain ⟨t3, d3⟩ := half_lengths _ h3
  obtain ⟨t4, d4⟩ := half_lengths _ h4
  have n0 : netPick us 0 = us.1 := rfl
  have n1 : netPick us 1 = us.2.1 := rfl
  have n2 : netPick us 2 = us.2.2.1 := rfl
  have n3 : netPick us 3 = us.2.2.2 := rfl
  have l1 : (writeBytes (acc) (8 * k) (us.1.take 8)).length = 2048 := by
    rw [writeBytes_length _ _ _ (by rw [t1, hlen]; omega), hlen]
  have l2 : (writeBytes (writeBytes (acc) (8 * k) (us.1.take 8)) (8 * k + 1024) (us.1.drop 8)).length = 2048 := by
    rw [writeBytes_length _ _ _ (by rw [d1, l1]; omega), l1]
  have l3 : (writeBytes (writeBytes (writeBytes (acc) (8 * k) (us.1.take 8)) (8 * k + 1024) (us.1.drop 8)) (8 * k + 256) (us.2.1.take 8)).length = 2048 := by
    rw [writeBytes_length _ _ _ (by rw [t2, l2]; omega), l2]
  have l4 : (writeBytes (writeBytes (writeBytes (writeBytes (acc) (8 * k) (us.1.take 8)) (8 * k + 1024) (us.1.drop 8)) (8 * k + 256) (us.2.1.take 8)) (8 * k + 1280) (us.2.1.drop 8)).length = 2048 := by
    rw [writeBytes_length _ _ _ (by rw [d2, l3]; omega), l3]
  have l5 : (writeBytes (writeBytes (writeBytes (writeBytes (writeBytes (acc) (8 * k) (us.1.take 8)) (8 * k + 1024) (us.1.drop 8)) (8 * k + 256) (us.2.1.take 8)) (8 * k + 1280) (us.2.1.drop 8)) (8 * k + 512) (us.2.2.1.take 8)).length = 2048 := by
    rw [writeBytes_length _ _ _ (by rw [t3, l4]; omega), l4]
  have l6 : (writeBytes (writeBytes (writeBytes (writeBytes (writeBytes (writeBytes (acc) (8 * k) (us.1.take 8)) (8 * k + 1024) (us.1.drop 8)) (8 * k + 256) (us.2.1.take 8)) (8 * k + 1280) (us.2.1.drop 8)) (8 * k + 512) (us.2.2.1.take 8)) (8 * k + 1536) (us.2.2.1.drop 8)).length = 2048 := by
    rw [writeBytes_length _ _ _ (by rw [d3, l5]; omega), l5]
  have l7 : (writeBytes (writeBytes (writeBytes (writeBytes (writeBytes (writeBytes (writeBytes (acc) (8 * k) (us.1.take 8)) (8 * k + 1024) (us.1.drop 8)) (8 * k + 256) (us.2.1.take 8)) (8 * k + 1280) (us.2.1.drop 8)) (8 * k + 512) (us.2.2.1.take 8)) (8 * k + 1536) (us.2.2.1.drop 8)) (8 * k + 768) (us.2.2.2.take 8)).length = 2048 := by
    rw [writeBytes_length _ _ _ (by rw [t4, l6]; omega), l6]
  unfold sseStoreBlock
  rw [writeBytes_getD1 _ _ _ _ (by rw [d4, l7]; omega), d4]
  by_cases hb8 : 8 * k + 1792 ≤ i ∧ i < 8 * k + 1792 + 8
  · rw [if_pos hb8, if_pos (show i / 8 % 32 = k by omega)]
    have hc : i / 256 = 7 := by omega
    have hr : i - (8 * k + 1792) = i % 8 := by omega
    rw [hr, drop_getD, hc]
    norm_num [n3]
  rw [if_neg hb8]
  rw [writeBytes_getD1 _ _ _ _ (by rw [t4, l6]; omega), t4]
  by_cases hb7 : 8 * k + 768 ≤ i ∧ i < 8 * k + 768 + 8
  · rw [if_pos hb7, if_pos (show i / 8 % 32 = k by omega)]
    have hc : i / 256 = 3 := by omega
    have hr : i - (8 * k + 768) = i % 8 := by omega
    rw [hr, take_getD _ _ _ (by omega), hc]
    norm_num [n3]
  rw [if_neg hb7]
  rw [writeBytes_getD1 _ _ _ _ (by rw [d3, l5]; omega), d3]
  by_cases hb6 : 8 * k + 1536 ≤ i ∧ i < 8 * k + 1536 + 8
  · rw [if_pos hb6, if_pos (show i / 8 % 32 = k by omega)]
    have hc : i / 256 = 6 := by omega
    have hr : i - (8 * k + 1536) = i % 8 := by omega
    rw [hr, drop_getD, hc]
    norm_num [n2]
  rw [if_neg hb6]
  rw [writeBytes_getD1 _ _ _ _ (by rw [t3, l4]; omega), t3]
  by_cases hb5 : 8 * k + 512 ≤ i ∧ i < 8 * k + 512 + 8
  · rw [if_pos hb5, if_pos (show i / 8 % 32 = k by omega)]
    have hc : i / 256 = 2 := by omega
    have hr : i - (8 * k + 512) = i % 8 := by omega
    rw [hr, take_getD _ _ _ (by omega), hc]
    norm_num [n2]
  rw [if_neg hb5]
  rw [writeBytes_getD1 _ _ _ _ (by rw [d2, l3]; omega), d2]
  by_cases hb4 : 8 * k + 1280 ≤ i ∧ i < 8 * k + 1280 + 8
  · rw [if_pos hb4, if_pos (show i / 8 % 32 = k by omega)]
    have hc : i / 256 = 5 := by omega
    have hr : i - (8 * k + 1280) = i % 8 := by omega
    rw [hr, drop_getD, hc]
    norm_num [n1]
  rw [if_neg hb4]
  rw [writeBytes_getD1 _ _ _ _ (by rw [t2, l2]; omega), t2]
  by_cases hb3 : 8 * k + 256 ≤ i ∧ i < 8 * k + 256 + 8
  · rw [if_pos hb3, if_pos (show i / 8 % 32 = k by omega)]
    have hc : i / 256 = 1 := by omega
    have hr : i - (8 * k + 256) = i % 8 := by omega
    rw [hr, take_getD _ _ _ (by omega), hc]
    norm_num [n1]
  rw [if_neg hb3]
  rw [writeBytes_getD1 _ _ _ _ (by rw [d1, l1]; omega), d1]
  by_cases hb2 : 8 * k + 1024 ≤ i ∧ i < 8 * k + 1024 + 8
  · rw [if_pos hb2, if_pos (show i / 8 % 32 = k by omega)]
    have hc : i / 256 = 4 := by omega
    have hr : i - (8 * k + 1024) = i % 8 := by omega
    rw [hr, drop_getD, hc]
    norm_num [n0]
  rw [if_neg hb2]
  rw [writeBytes_getD1 _ _ _ _ (by rw [t1, hlen]; omega), t1]
  by_cases hb1 : 8 * k ≤ i ∧ i < 8 * k + 8
  · rw [if_pos hb1, if_pos (show i / 8 % 32 = k by omega)]
    have hc : i / 256 = 0 := by omega
    have hr : i - (8 * k) = i % 8 := by omega
    rw [hr, take_getD _ _ _ (by omega), hc]
    norm_num [n0]
  rw [if_neg hb1]
  rw [if_neg (show ¬ i / 8 % 32 = k by omega)]

theorem offsets_facts : ∀ k, k < 32 →
    OFFSETS.getD k 0 ≤ 248 ∧ OFFSETS.getD k 0 % 8 = 0 := by decide

theorem rev3_lt (x : Nat) (h : x < 8) : rev3 x < 8 := by
  interval_cases x <;> decide

theorem sse_g_lengths (inp : List Nat) (hlen : inp.length = 2064) (k : Nat)
    (hk : k < 32) :
    ∀ m, m < 8 → (load8 inp (OFFSETS.getD k 0 + 256 * m)).length = 8 := by
  intro m hm
  apply load8_length
  have := (offsets_facts k hk).1
  omega

theorem sse_fold_getD (inp : List Nat) (hlen : inp.length = 2064) :
    ∀ (ks : List Nat), (∀ k ∈ ks, k < 32) →
    ∀ (acc : List Nat), acc.length = 2048 →
    ∀ i, i < 2048 →
    (ks.foldl (fun a k => sseStoreBlock a k
        (shuffleNet (fun m => load8 inp (OFFSETS.getD k 0 + 256 * m)))) acc).getD i 0 =
      if i / 8 % 32 ∈ ks then inp.getD (sseIdx i) 0 else acc.getD i 0 := by
  intro ks
  induction ks with
  | nil =>
    intro _ acc _ i _
    simp
  | cons k ks ih =>
    intro hmem acc hacc i hi
    have hk : k < 32 := hmem k (List.mem_cons_self k ks)
    have hg := sse_g_lengths inp hlen k hk
    obtain ⟨u1, u2, u3, u4⟩ := shuffleNet_lengths _ hg
    rw [List.foldl_cons,
      ih (fun x hx => hmem x (List.mem_cons_of_mem _ hx)) _
        (sseStoreBlock_length _ _ _ hk hacc u1 u2 u3 u4) i hi,
      sseStoreBlock_getD _ _ _ hk hacc u1 u2 u3 u4 i hi]
    have hval : (netPick (shuffleNet (fun m => load8 inp (OFFSETS.getD k 0 + 256 * m)))
        (i / 256 % 4)).getD (i / 256 / 4 * 8 + i % 8) 0 =
        inp.getD (256 * rev3 (i % 8) + OFFSETS.getD k 0 + rev3 (i / 256)) 0 := by
      rw [shuffleNet_getD _ hg (i / 256) (i % 8) (by omega) (by omega),
        load8_getD _ _ _ (rev3_lt _ (by omega))]
      have harr : OFFSETS.getD k 0 + 256 * rev3 (i % 8) + rev3 (i / 256) =
          256 * rev3 (i % 8) + OFFSETS.getD k 0 + rev3 (i / 256) := by omega
      rw [harr]
    by_cases hm1 : i / 8 % 32 ∈ ks
    · rw [if_pos hm1, if_pos (List.mem_cons_of_mem _ hm1)]
    · rw [if_neg hm1]
      by_cases hm2 : i / 8 % 32 = k
      · rw [if_pos hm2, if_pos (hm2 ▸ List.mem_cons_self k ks), hval]
        unfold sseIdx
        rw [hm2]
      · rw [if_neg hm2, if_neg (by simp [List.mem_cons, hm1, hm2])]

theorem reverse_sse_getD (inp : List Nat) (hlen : inp.length = 2064)
    (i : Nat) (hi : i < 2048) :
    (reverse_sse inp).getD i 0 = inp.getD (sseIdx i) 0 := by
  unfold reverse_sse
  rw [sse_fold_getD inp hlen (List.range 32) (fun x hx => List.mem_range.mp hx)
    (List.replicate 2048 0) (by simp) i hi,
    if_pos (List.mem_range.mpr (by omega))]

theorem reverse_naive_getD (inp : List Nat) (i : Nat) (hi : i < 2048) :
    (reverse_naive inp).getD i 0 = inp.getD (bitrev16 i >>> 5) 0 := by
  unfold reverse_naive
  rw [List.getD_eq_getElem?_getD, List.getElem?_map, List.getElem?_range hi]
  rfl

theorem sseIdx_eq_bitrev (a : Nat) (ha : a < 8) :
    ∀ b, b < 256 → sseIdx (256 * a + b) = bitrev16 (256 * a + b) >>> 5 := by
  interval_cases a <;> decide

theorem bytesOf64_length (w : Nat) : (bytesOf64 w).length = 8 := rfl

theorem bytesOf64_leVal (l : List Nat) (h : l.length = 8) :
    bytesOf64 (leVal l) = l.map (· % 256) := by
  obtain ⟨b0, b1, b2, b3, b4, b5, b6, b7, rfl⟩ := list_len8 l h
  simp only [bytesOf64, leVal, List.map_cons, List.map_nil, List.cons.injEq,
    and_true]
  refine ⟨by omega, by omega, by omega, by omega, by omega, by omega, by omega,
    by omega⟩

theorem bytesToWords_getD (l : List Nat) (q : Nat) (hq : q < 258) :
    (bytesToWords l).getD q 0 = leVal (load8 l (8 * q)) := by
  unfold bytesToWords
  rw [List.getD_eq_getElem?_getD, List.getElem?_map, List.getElem?_range hq]
  rfl

theorem flatten_map_getD (ws : List Nat) (i : Nat) (h : i < 8 * ws.length) :
    ((ws.map bytesOf64).flatten).getD i 0 =
      (bytesOf64 (ws.getD (i / 8) 0)).getD (i % 8) 0 := by
  induction ws generalizing i with
  | nil => simp at h
  | cons w ws ih =>
    simp only [List.map_cons, List.flatten_cons]
    by_cases h8 : i < 8
    · rw [List.getD_append _ _ _ _ (by rw [bytesOf64_length]; omega)]
      rw [show i / 8 = 0 from by omega, show i % 8 = i from by omega]
      rfl
    · rw [List.getD_append_right _ _ _ _ (by rw [bytesOf64_length]; omega)]
      rw [bytesOf64_length, ih (i - 8) (by simp at h ⊢; omega)]
      rw [show (i - 8) / 8 = i / 8 - 1 from by omega,
        show (i - 8) % 8 = i % 8 from by omega]
      have hd : (w :: ws).getD (i / 8) 0 = ws.getD (i / 8 - 1) 0 := by
        have h1 : i / 8 = (i / 8 - 1) + 1 := by omega
        rw [h1]
        rfl
      rw [hd]

theorem simdStoreBlock_length (accW : List Nat) (k : Nat)
    (us : List Nat × List Nat × List Nat × List Nat) :
    (simdStoreBlock accW k us).length = accW.length := by
  simp [simdStoreBlock]

theorem simdStoreBlock_getD (accW : List Nat) (k : Nat)
    (us : List Nat × List Nat × List Nat × List Nat) (hk : k < 32)
    (hlen : accW.length = 256) (p : Nat) (hp : p < 256) :
    (simdStoreBlock accW k us).getD p 0 =
      if p % 32 = k then
        leVal (halfOf (netPick us (p / 32 % 4)) (p / 32 / 4))
      else accW.getD p 0 := by
  have n0 : netPick us 0 = us.1 := rfl
  have n1 : netPick us 1 = us.2.1 := rfl
  have n2 : netPick us 2 = us.2.2.1 := rfl
  have n3 : netPick us 3 = us.2.2.2 := rfl
  have hf0 : ∀ u : List Nat, halfOf u 0 = u.take 8 := fun u => rfl
  have hf1 : ∀ u : List Nat, halfOf u 1 = u.drop 8 := fun u => rfl
  unfold simdStoreBlock
  simp only [set_getD, List.length_set, hlen]
  by_cases hb8 : k + 224 = p ∧ p < 256
  · rw [if_pos hb8, if_pos (show p % 32 = k by omega)]
    rw [show p / 32 = 7 from by omega]
    norm_num [n3, hf1]
  rw [if_neg hb8]
  by_cases hb7 : k + 96 = p ∧ p < 256
  · rw [if_pos hb7, if_pos (show p % 32 = k by omega)]
    rw [show p / 32 = 3 from by omega]
    norm_num [n3, hf0]
  rw [if_neg hb7]
  by_cases hb6 : k + 192 = p ∧ p < 256
  · rw [if_pos hb6, if_pos (show p % 32 = k by omega)]
    rw [show p / 32 = 6 from by omega]
    norm_num [n2, hf1]
  rw [if_neg hb6]
  by_cases hb5 : k + 64 = p ∧ p < 256
  · rw [if_pos hb5, if_pos (show p % 32 = k by omega)]
    rw [show p / 32 = 2 from by omega]
    norm_num [n2, hf0]
  rw [if_neg hb5]
  by_cases hb4 : k + 160 = p ∧ p < 256
  · rw [if_pos hb4, if_pos (show p % 32 = k by omega)]
    rw [show p / 32 = 5 from by omega]
    norm_num [n1, hf1]
  rw [if_neg hb4]
  by_cases hb3 : k + 32 = p ∧ p < 256
  · rw [if_pos hb3, if_pos (show p % 32 = k by omega)]
    rw [show p / 32 = 1 from by omega]
    norm_num [n1, hf0]
  rw [if_neg hb3]
  by_cases hb2 : k + 128 = p ∧ p < 256
  · rw [if_pos hb2, if_pos (show p % 32 = k by omega)]
    rw [show p / 32 = 4 from by omega]
    norm_num [n0, hf1]
  rw [if_neg hb2]
  by_cases hb1 : k = p ∧ p < 256
  · rw [if_pos hb1, if_pos (show p % 32 = k by omega)]
    rw [show p / 32 = 0 from by omega]
    norm_num [n0, hf0]
  rw [if_neg hb1]
  rw [if_neg (show ¬ p % 32 = k by omega)]

theorem halfOf_getD (u : List Nat) (h r : Nat) (hh : h < 2) (hr : r < 8) :
    (halfOf u h).getD r 0 = u.getD (h * 8 + r) 0 := by
  interval_cases h
  · rw [show halfOf u 0 = u.take 8 from rfl, take_getD _ _ _ hr]
    norm_num
  · rw [show halfOf u 1 = u.drop 8 from rfl, drop_getD]

theorem netPick_length (us : List Nat × List Nat × List Nat × List Nat)
    (h1 : us.1.length = 16) (h2 : us.2.1.length = 16)
    (h3 : us.2.2.1.length = 16) (h4 : us.2.2.2.length = 16) :
    ∀ q, (netPick us q).length = 16 := by
  intro q
  match q with
  | 0 => exact h1
  | 1 => exact h2
  | 2 => exact h3
  | n + 3 => exact h4

theorem halfOf_length (u : List Nat) (hu : u.length = 16) (h : Nat) :
    (halfOf u h).length = 8 := by
  unfold halfOf
  split <;> simp [hu]

theorem simd_g_lengths (ws : List Nat) (k : Nat) :
    ∀ m, m < 8 →
      (bytesOf64 (ws.getD (OFFSETS.getD k 0 / 8 + 32 * m) 0)).length = 8 :=
  fun _ _ => rfl

theorem simd_fold_getD (ws : List Nat) :
    ∀ (ks : List Nat), (∀ k ∈ ks, k < 32) →
    ∀ (accW : List Nat), accW.length = 256 →
    ∀ p, p < 256 →
    (ks.foldl (fun a k => simdStoreBlock a k
        (shuffleNet (fun m =>
          bytesOf64 (ws.getD (OFFSETS.getD k 0 / 8 + 32 * m) 0)))) accW).getD p 0 =
      if p % 32 ∈ ks then
        leVal (halfOf (netPick (shuffleNet (fun m =>
          bytesOf64 (ws.getD (OFFSETS.getD (p % 32) 0 / 8 + 32 * m) 0)))
          (p / 32 % 4)) (p / 32 / 4))
      else accW.getD p 0 := by
  intro ks
  induction ks with
  | nil =>
    intro _ accW _ p _
    simp
  | cons k ks ih =>
    intro hmem accW hacc p hp
    have hk : k < 32 := hmem k (List.mem_cons_self k ks)
    rw [List.foldl_cons,
      ih (fun x hx => hmem x (List.mem_cons_of_mem _ hx)) _
        (by rw [simdStoreBlock_length, hacc]) p hp,
      simdStoreBlock_getD _ _ _ hk hacc p hp]
    by_cases hm1 : p % 32 ∈ ks
    · rw [if_pos hm1, if_pos (List.mem_cons_of_mem _ hm1)]
    · rw [if_neg hm1]
      by_cases hm2 : p % 32 = k
      · rw [if_pos hm2, if_pos (hm2 ▸ List.mem_cons_self k ks), hm2]
      · rw [if_neg hm2, if_neg (by simp [List.mem_cons, hm1, hm2])]

theorem fold_simd_length (ws : List Nat) (ks : List Nat) (accW : List Nat) :
    (ks.foldl (fun a k => simdStoreBlock a k
        (shuffleNet (fun m =>
          bytesOf64 (ws.getD (OFFSETS.getD k 0 / 8 + 32 * m) 0)))) accW).length =
      accW.length := by
  induction ks generalizing accW with
  | nil => rfl
  | cons k ks ih =>
    rw [List.foldl_cons, ih, simdStoreBlock_length]

theorem getD_lt_of_all (l : List Nat) (j : Nat) (hall : ∀ b ∈ l, b < 256)
    (hj : j < l.length) : l.getD j 0 < 256 := by
  rw [List.getD_eq_getElem?_getD, List.getElem?_eq_getElem hj]
  exact hall _ (List.getElem_mem hj)

theorem sseIdx_lt (i : Nat) (hi : i < 2048) : sseIdx i < 2064 := by
  unfold sseIdx
  have h1 := rev3_lt (i % 8) (by omega)
  have h2 := rev3_lt (i / 256) (by omega)
  have h3 := (offsets_facts (i / 8 % 32) (by omega)).1
  omega

theorem reverse_simd_getD (inp : List Nat) (hlen : inp.length = 2064)
    (hbyte : ∀ b ∈ inp, b < 256) (i : Nat) (hi : i < 2048) :
    (reverse_simd (bytesToWords inp)).getD i 0 = inp.getD (sseIdx i) 0 := by
  unfold reverse_simd
  have hwlen : ∀ accW : List Nat,
      (((List.range 32).foldl (fun a k => simdStoreBlock a k
        (shuffleNet (fun m =>
          bytesOf64 ((bytesToWords inp).getD (OFFSETS.getD k 0 / 8 + 32 * m) 0))))
        accW).length) = accW.length := fun accW => fold_simd_length _ _ _
  rw [flatten_map_getD _ i (by rw [hwlen]; simp; omega)]
  rw [simd_fold_getD (bytesToWords inp) (List.range 32)
    (fun x hx => List.mem_range.mp hx) (List.replicate 256 0) (by simp)
    (i / 8) (by omega),
    if_pos (List.mem_range.mpr (by omega))]
  have hoff := offsets_facts (i / 8 % 32) (by omega)
  have hg8 : ∀ m, m < 8 →
      8 * (OFFSETS.getD (i / 8 % 32) 0 / 8 + 32 * m) =
        OFFSETS.getD (i / 8 % 32) 0 + 256 * m := by
    intro m _
    omega
  have hgl : ∀ m, m < 8 →
      (load8 inp (OFFSETS.getD (i / 8 % 32) 0 + 256 * m)).length = 8 :=
    sse_g_lengths inp hlen (i / 8 % 32) (by omega)
  have hgv : ∀ m, m < 8 →
      bytesOf64 ((bytesToWords inp).getD (OFFSETS.getD (i / 8 % 32) 0 / 8 + 32 * m) 0) =
        (load8 inp (OFFSETS.getD (i / 8 % 32) 0 + 256 * m)).map (· % 256) := by
    intro m hm
    rw [bytesToWords_getD _ _ (by have := hoff.1; omega), hg8 m hm,
      bytesOf64_leVal _ (hgl m hm)]
  have hglm : ∀ m, m < 8 →
      (bytesOf64 ((bytesToWords inp).getD
        (OFFSETS.getD (i / 8 % 32) 0 / 8 + 32 * m) 0)).length = 8 :=
    fun m hm => rfl
  obtain ⟨u1, u2, u3, u4⟩ := shuffleNet_lengths _ hglm
  have hchunk : (halfOf (netPick (shuffleNet (fun m =>
      bytesOf64 ((bytesToWords inp).getD
        (OFFSETS.getD (i / 8 % 32) 0 / 8 + 32 * m) 0)))
      (i / 8 / 32 % 4)) (i / 8 / 32 / 4)).length = 8 :=
    halfOf_length _ (netPick_length _ u1 u2 u3 u4 _) _
  rw [bytesOf64_leVal _ hchunk,
    getD_map0 (· % 256) rfl _ (i % 8),
    halfOf_getD _ _ _ (by omega) (by omega)]
  have hq4 : i / 8 / 32 % 4 = i / 256 % 4 := by omega
  have hh4 : i / 8 / 32 / 4 = i / 256 / 4 := by omega
  rw [hq4, hh4, shuffleNet_getD _ hglm (i / 256) (i % 8) (by omega) (by omega),
    hgv _ (rev3_lt (i % 8) (by omega)),
    getD_map0 (· % 256) rfl _ (rev3 (i / 256)),
    load8_getD _ _ _ (rev3_lt (i / 256) (by omega))]
  have harr : OFFSETS.getD (i / 8 % 32) 0 + 256 * rev3 (i % 8) + rev3 (i / 256) =
      sseIdx i := by
    unfold sseIdx
    omega
  rw [harr, Nat.mod_mod_of_dvd, Nat.mod_eq_of_lt
    (getD_lt_of_all inp _ hbyte (by rw [hlen]; exact sseIdx_lt i hi))]
  decide

/-- **C9**: on every 2064-byte input table, the three reverse-LUT builders
agree at every output index in `[1, 2048)`: `reverse_sse` and
`reverse_simd` (which receives the table as 258 little-endian `u64` words)
both compute `reverse_naive`, i.e. `output[i] = input[bitrev16 i >> 5]`. -/
theorem reverse_luts_agree (inp : List Nat) (hlen : inp.length = 2064)
    (hbyte : ∀ b ∈ inp, b < 256) (i : Nat) (h1 : 1 ≤ i) (h2 : i < 2048) :
    (reverse_sse inp).getD i 0 = (reverse_naive inp).getD i 0 ∧
    (reverse_simd (bytesToWords inp)).getD i 0 = (reverse_naive inp).getD i 0 := by
  rw [reverse_sse_getD inp hlen i h2, reverse_naive_getD inp i h2,
    reverse_simd_getD inp hlen hbyte i h2]
  have hkey := sseIdx_eq_bitrev (i / 256) (by omega) (i % 256) (by omega)
  rw [show 256 * (i / 256) + i % 256 = i from by omega] at hkey
  rw [hkey]
  exact ⟨rfl, rfl⟩

/-- **C9** witness: the agreement theorem applied to the all-zero table at
output index 1. -/
theorem reverse_luts_agree_witness :
    (List.replicate 2064 0 : List Nat).length = 2064 ∧
    (∀ b ∈ (List.replicate 2064 0 : List Nat), b < 256) ∧ 1 ≤ 1 ∧ 1 < 2048 ∧
    ((reverse_sse (List.replicate 2064 0)).getD 1 0 =
      (reverse_naive (List.replicate 2064 0)).getD 1 0 ∧
     (reverse_simd (bytesToWords (List.replicate 2064 0))).getD 1 0 =
      (reverse_naive (List.replicate 2064 0)).getD 1 0) := by
  have hb : ∀ b ∈ (List.replicate 2064 0 : List Nat), b < 256 := by
    intro b hb
    rw [List.eq_of_mem_replicate hb]
    omega
  exact ⟨by simp, hb, by omega, by omega,
    reverse_luts_agree (List.replicate 2064 0) (by simp) hb 1 (by omega) (by omega)⟩

end Ooz
